import Mathlib

/-!
# REDsync COA backend — shallow embedding and verification

This file embeds the COA extraction/reconciliation logic of the backend
(`dist/routes/coa.js`, `src/utils/coaColumns.ts`) as executable Lean
definitions and proves properties of the embedded code.

Conventions:
* JavaScript strings are modelled as `String` / `List Char`;
  `null`/`undefined` string values are modelled as `Option String`
  with `none` standing for null/undefined.
* The Prisma record store is modelled as a `List` of records, and the
  store-mutating routes as functions from store to store.
-/

namespace Coa


/-- Whitespace predicate used for JS `trim` / `\s` (ASCII whitespace). -/
def isWs (c : Char) : Bool := c.isWhitespace

/-- JS `String.prototype.trim`: drop leading and trailing whitespace. -/
def trimChars (l : List Char) : List Char :=
  ((l.dropWhile isWs).reverse.dropWhile isWs).reverse

/-- `replace(/^M\s*/i, '')`: strip one leading `M`/`m` plus following whitespace. -/
def stripLeadingM : List Char → List Char
  | [] => []
  | c :: rest => if c = 'M' ∨ c = 'm' then rest.dropWhile isWs else c :: rest

/-- Embeds `normalizeSampleId` from `dist/routes/coa.js` (char-list core):
`if (!sampleId) return null; trim; strip leading M; trim; return withoutM || null`. -/
def normalizeSampleIdChars (l : List Char) : Option (List Char) :=
  if l = [] then none
  else
    let withoutM := trimChars (stripLeadingM (trimChars l))
    if withoutM = [] then none else some withoutM

/-- Embeds `normalizeSampleId` from `dist/routes/coa.js` on JS string-or-null values. -/
def normalizeSampleId (sampleId : Option String) : Option String :=
  match sampleId with
  | none => none
  | some s => (normalizeSampleIdChars s.data).map (fun l => String.mk l)

/-- True when the (char list of the) string starts with `M` or `m`. -/
def headIsM (t : List Char) : Bool :=
  match t with
  | [] => false
  | c :: _ => c = 'M' || c = 'm'

/-! ## Filename-fallback identifier extraction (`extractIdsFromFilename`)

Embeds the two JS regex searches
`fileName.match(/\b(BA\d{6})\b/i)` and `fileName.match(/\b(M\s*\d{8})\b/i)`
as leftmost-match scanners over the character list. Neither pattern needs
backtracking: the counted digit groups are fixed-length and `\s*` is followed by
a digit, which no whitespace character is. -/

/-- JS `\w` word character: `[A-Za-z0-9_]`. -/
def isWordChar (c : Char) : Bool := c.isAlpha || c.isDigit || c = '_'

/-- Take exactly `n` decimal digits from the front; return them and the rest. -/
def takeDigitsN : Nat → List Char → Option (List Char × List Char)
  | 0, rest => some ([], rest)
  | _ + 1, [] => none
  | n + 1, c :: rest =>
    if c.isDigit then (takeDigitsN n rest).map (fun p => (c :: p.1, p.2)) else none

/-- Word boundary after a match: end of input or a non-word character. -/
def boundaryAfter : List Char → Bool
  | [] => true
  | c :: _ => !(isWordChar c)

/-- Word boundary at a position, given the character preceding it (none at start). -/
def boundaryBefore : Option Char → Bool
  | none => true
  | some c => !(isWordChar c)

/-- Attempt the `\b(BA\d{6})\b` (case-insensitive) pattern at the current position. -/
def tryBatchAt (prev : Option Char) (cs : List Char) : Option (List Char) :=
  if boundaryBefore prev then
    match cs with
    | b :: a :: rest =>
      if (b = 'B' ∨ b = 'b') ∧ (a = 'A' ∨ a = 'a') then
        match takeDigitsN 6 rest with
        | some (ds, rest') => if boundaryAfter rest' then some (b :: a :: ds) else none
        | none => none
      else none
    | _ => none
  else none

/-- Attempt the `\b(M\s*\d{8})\b` (case-insensitive) pattern at the current position. -/
def trySampleAt (prev : Option Char) (cs : List Char) : Option (List Char) :=
  if boundaryBefore prev then
    match cs with
    | m :: rest =>
      if m = 'M' ∨ m = 'm' then
        match takeDigitsN 8 (rest.dropWhile isWs) with
        | some (ds, rest') =>
          if boundaryAfter rest' then some (m :: (rest.takeWhile isWs ++ ds)) else none
        | none => none
      else none
    | _ => none
  else none

/-- Leftmost-first regex search: try the pattern at each successive position. -/
def scanFirst (try_ : Option Char → List Char → Option (List Char)) :
    Option Char → List Char → Option (List Char)
  | prev, cs =>
    match try_ prev cs with
    | some m => some m
    | none =>
      match cs with
      | [] => none
      | c :: rest => scanFirst try_ (some c) rest

/-- Result of `extractIdsFromFilename`. -/
structure FilenameIds where
  batchId : Option String
  sampleId : Option String
deriving DecidableEq, Repr

/-- Embeds `extractIdsFromFilename` from `dist/routes/coa.js` (char-list core):
batch from `\b(BA\d{6})\b/i`, sample from `\b(M\s*\d{8})\b/i` with all whitespace
removed from the matched sample code and the result trimmed. -/
def extractIdsFromFilenameChars (fileName : List Char) :
    Option (List Char) × Option (List Char) :=
  (scanFirst tryBatchAt none fileName,
   (scanFirst trySampleAt none fileName).map
     (fun m => trimChars (m.filter (fun c => !(isWs c)))))

/-- Embeds `extractIdsFromFilename` from `dist/routes/coa.js`. -/
def extractIdsFromFilename (fileName : String) : FilenameIds :=
  let p := extractIdsFromFilenameChars fileName.data
  ⟨p.1.map (fun l => String.mk l), p.2.map (fun l => String.mk l)⟩

/-! ## Record store model

`CoaRecord` models a Prisma `coaRecord` row.  Parameter columns (`ai`, `lead`,
`pc`, …) are modelled uniformly as the association list `fields`; the
`additionalFields` JSON blob and the `updatedAt` timestamp are not modelled.
JS string-or-null column values are `Option String` (`none` = null/undefined). -/

/-- JS falsiness for string-or-null values: null/undefined or `""`. -/
def isEmptyVal : Option String → Bool
  | none => true
  | some s => s = ""

/-- JS `a || b` on string-or-null values. -/
def jsOr (a b : Option String) : Option String := if isEmptyVal a then b else a

/-- JS `String(v)` on a string-or-null value. -/
def jsStr (v : Option String) : String :=
  match v with
  | some s => s
  | none => "null"

structure CoaRecord where
  id : Nat
  userId : Option String
  fileName : String
  sampleId : Option String
  batchId : Option String
  fields : List (String × Option String)
  createdAt : Nat
deriving DecidableEq, Repr

/-- JS object property read. -/
def assocGet {β : Type} : List (String × β) → String → Option β
  | [], _ => none
  | (k', v') :: rest, k => if k' = k then some v' else assocGet rest k

/-- JS object property assignment (replace first binding or append). -/
def assocSet {β : Type} : List (String × β) → String → β → List (String × β)
  | [], k, v => [(k, v)]
  | (k', v') :: rest, k, v =>
    if k' = k then (k, v) :: rest else (k', v') :: assocSet rest k v

/-- The value of a record's parameter column as JS sees it (`undefined` = `none`). -/
def fieldVal (fields : List (String × Option String)) (k : String) : Option String :=
  (assocGet fields k).join

/-- The database-shaped extraction result built by `mapExtractedDataToDbFields`. -/
structure DbData where
  sampleId : Option String
  batchId : Option String
  fields : List (String × Option String)
deriving DecidableEq, Repr

/-- The `fieldMapping` table of `mapExtractedDataToDbFields` in `dist/routes/coa.js`. -/
def fieldMapping : List (String × String) :=
  [("AI", "ai"), ("AV", "av"), ("POV", "pov"),
   ("Color Gardner (10% dil.)", "colorGardner10"),
   ("Viscosity at 25°C", "viscosity25"),
   ("Hexane Insolubles", "hexaneInsolubles"), ("Moisture", "moisture"),
   ("Lead", "lead"), ("Mercury", "mercury"), ("Arsenic", "arsenic"),
   ("Iron (Fe)", "iron"),
   ("Enterobacteriaceae", "enterobacteriaceae"),
   ("Total Plate Count", "totalPlateCount"),
   ("Yeasts & Molds", "yeastsMolds"), ("Yeasts & Moulds", "yeastsMolds"),
   ("Yeasts", "yeasts"), ("Moulds", "moulds"),
   ("Salmonella (in 25g)", "salmonella25g"),
   ("Salmonella (in 250g)", "salmonella250g"),
   ("E. coli", "eColi"),
   ("Listeria monocytogenes (in 25g)", "listeria25g"),
   ("PC", "pc"), ("PE", "pe"), ("LPC", "lpc"), ("PA", "pa"), ("PI", "pi"),
   ("P", "p"), ("PL", "pl"),
   ("PAH4", "pah4"), ("Ochratoxin A", "ochratoxinA"),
   ("Pesticides", "pesticides"), ("Heavy Metals", "heavyMetals"),
   ("Peanut content", "peanutContent"),
   ("PCR, 50 cycl. (GMO), 35S/NOS/FMV", "gmoTest"),
   ("Color Gardner (As is)", "colorGardnerAsIs"), ("Color Iodine", "colorIodine"),
   ("Toluene Insolubles", "tolueneInsolubles"),
   ("Specific gravity", "specificGravity"),
   ("FFA (%Oleic) at loading", "ffaAtLoading"),
   ("Iodine value", "iodineValue"), ("Soap content", "soapContent"),
   ("Insoluble matters", "insolubleMatter"),
   ("Moisture and insolubles", "moistureInsolubles")]

/-- Embeds `mapExtractedDataToDbFields` from `dist/routes/coa.js`: reserved keys go
to `sampleId`/`batchId` (`extraction_phase` to the `extractionPhase` column), mapped
keys to their columns (null stringified to `""`), `file`/`phase` are dropped.
Unmapped keys (the `additionalFields` bucket) are not modelled. -/
def mapExtractedDataToDbFields (extracted : List (String × Option String)) : DbData :=
  extracted.foldl (fun db kv =>
    if kv.1 = "sample_id" then { db with sampleId := kv.2 }
    else if kv.1 = "batch_id" then { db with batchId := kv.2 }
    else if kv.1 = "extraction_phase" then
      { db with fields := assocSet db.fields "extractionPhase" kv.2 }
    else
      match assocGet fieldMapping kv.1 with
      | some dbKey =>
        let v : Option String := some (match kv.2 with | some s => s | none => "")
        { db with fields := assocSet db.fields dbKey v }
      | none => db)
    ⟨none, none, []⟩

/-- A fresh row as built by `prisma.coaRecord.create` in `upsertCoaRecord`. -/
def mkNewRecord (newId : Nat) (userId : String) (fileName : String) (d : DbData)
    (now : Nat) : CoaRecord :=
  { id := newId, userId := some userId, fileName := fileName,
    sampleId := d.sampleId, batchId := d.batchId, fields := d.fields, createdAt := now }

/-- The `updateData` application of `upsertCoaRecord`: only non-null/non-empty
values are written; other columns keep their previous values. -/
def applyFieldAssignments (base upd : List (String × Option String)) :
    List (String × Option String) :=
  upd.foldl (fun acc kv => if isEmptyVal kv.2 then acc else assocSet acc kv.1 kv.2) base

/-- The merge step of `upsertCoaRecord` on a found record: non-empty values of
`dbData` override, `fileName` is always refreshed (`updatedAt` not modelled). -/
def applyUpdateToRecord (rec : CoaRecord) (d : DbData) (fileName : String) : CoaRecord :=
  { rec with
    fileName := fileName,
    sampleId := if isEmptyVal d.sampleId then rec.sampleId else d.sampleId,
    batchId := if isEmptyVal d.batchId then rec.batchId else d.batchId,
    fields := applyFieldAssignments rec.fields d.fields }

/-- The candidate test of `upsertCoaRecord`: same user, stored `batchId` equal to the
normalized batch, non-null stored `sampleId` normalizing to the same sample. -/
def isUpsertMatch (userId : String) (nBatch : String) (nSample : String)
    (r : CoaRecord) : Bool :=
  r.userId == some userId && r.batchId == some nBatch && r.sampleId != none &&
    normalizeSampleId r.sampleId == some nSample

/-- Embeds `upsertCoaRecord` from `dist/routes/coa.js`: filename fallback for
missing IDs, create when the IDs cannot be resolved or normalized, otherwise
merge into the first matching record or create. -/
def upsertCoaRecord (store : List CoaRecord) (userId : String) (fileName : String)
    (dbData : DbData) (newId now : Nat) : List CoaRecord :=
  let f := extractIdsFromFilename fileName
  let fb := isEmptyVal dbData.sampleId || isEmptyVal dbData.batchId
  let sampleId := if fb then jsOr dbData.sampleId f.sampleId else dbData.sampleId
  let batchId := if fb then jsOr dbData.batchId f.batchId else dbData.batchId
  let d :=
    if fb then
      { dbData with
        sampleId := if isEmptyVal f.sampleId then dbData.sampleId else f.sampleId,
        batchId := if isEmptyVal f.batchId then dbData.batchId else f.batchId }
    else dbData
  if isEmptyVal sampleId || isEmptyVal batchId then
    store ++ [mkNewRecord newId userId fileName d now]
  else
    let nBatch := String.mk (trimChars (jsStr batchId).data)
    match normalizeSampleId sampleId with
    | none => store ++ [mkNewRecord newId userId fileName d now]
    | some nSample =>
      if nBatch = "" then store ++ [mkNewRecord newId userId fileName d now]
      else
        match store.find? (isUpsertMatch userId nBatch nSample) with
        | some rec =>
          store.map (fun r => if r.id = rec.id then applyUpdateToRecord r d fileName else r)
        | none => store ++ [mkNewRecord newId userId fileName d now]

/-- Embeds `prisma.coaRecord.deleteMany` of DELETE `/records`: remove records whose
id is in the request and whose owner is the requesting user; report the count. -/
def deleteManyCoaRecords (store : List CoaRecord) (userId : String)
    (recordIds : List Nat) : List CoaRecord × Nat :=
  let hit : CoaRecord → Bool := fun r => recordIds.contains r.id && r.userId == some userId
  (store.filter (fun r => !(hit r)), (store.filter hit).length)

/-- Embeds the DELETE `/records` route: reject an absent or empty id list, else
delete the user's listed records. -/
def handleDeleteRecords (store : List CoaRecord) (userId : String)
    (recordIds : Option (List Nat)) : Except String (List CoaRecord × Nat) :=
  match recordIds with
  | none => .error "No record IDs provided"
  | some ids =>
    if ids = [] then .error "No record IDs provided"
    else .ok (deleteManyCoaRecords store userId ids)

/-! ## Upload batch processing (POST `/upload`)

The route loops over the uploaded files sequentially.  `runPythonParser` and the
record-store write are external interactions; each file carries their outcomes:
`parseOutcome` models the `runPythonParser` promise (`Except.error` for a
subprocess non-zero exit or malformed JSON on stdout) and `saveFails` models a
rejected store write (the `dbError` catch).  In the source, only the store write
is wrapped in a per-file `try`/`catch`; a rejected `runPythonParser` propagates
to the whole-request handler. -/

structure UploadFile where
  originalname : String
  parseOutcome : Except String (List (String × Option String))
  saveFails : Bool
deriving Repr

structure UploadResponse where
  results : List (String × List (String × Option String))
  savedToDatabase : Nat
  totalFiles : Nat
deriving Repr

/-- The parsed payload of a file whose parse succeeded. -/
def parsedOf (f : UploadFile) : List (String × Option String) :=
  match f.parseOutcome with
  | .ok p => p
  | .error _ => []

/-- Embeds the `for (const file of files)` loop of POST `/upload`: parse, map to
db fields, attempt the upsert (a store failure is caught and skipped), record the
per-file result; a parse failure escapes to the whole-request catch. -/
def processUploadLoop (userId : String) (totalFiles : Nat) :
    List UploadFile → List CoaRecord →
      List (String × List (String × Option String)) → Nat → Nat → Nat →
      List CoaRecord × Except String UploadResponse
  | [], store, results, savedCount, _, _ =>
    (store, .ok ⟨results, savedCount, totalFiles⟩)
  | f :: rest, store, results, savedCount, nextId, now =>
    match f.parseOutcome with
    | .error e => (store, .error ("Failed to process PDFs: " ++ e))
    | .ok parsed =>
      let dbData := mapExtractedDataToDbFields parsed
      let store' := if f.saveFails then store
        else upsertCoaRecord store userId f.originalname dbData nextId now
      let savedCount' := if f.saveFails then savedCount else savedCount + 1
      processUploadLoop userId totalFiles rest store'
        (results ++ [(f.originalname, parsed)]) savedCount' (nextId + 1) (now + 1)

/-- Embeds POST `/upload`: empty batch is rejected, otherwise the loop runs. -/
def handleUpload (userId : String) (files : List UploadFile) (store : List CoaRecord)
    (nextId now : Nat) : List CoaRecord × Except String UploadResponse :=
  if files.length = 0 then (store, .error "No files uploaded. Use files field.")
  else processUploadLoop userId files.length files store [] 0 nextId now

/-- The net store effect of processing a list of files (stopping at the first
parse failure; skipping files whose store write fails). -/
def persistAll (userId : String) : List UploadFile → List CoaRecord → Nat → Nat →
    List CoaRecord
  | [], store, _, _ => store
  | f :: rest, store, nextId, now =>
    match f.parseOutcome with
    | .error _ => store
    | .ok parsed =>
      let store' := if f.saveFails then store
        else upsertCoaRecord store userId f.originalname
          (mapExtractedDataToDbFields parsed) nextId now
      persistAll userId rest store' (nextId + 1) (now + 1)

/-! ## CSV export (POST `/export`)

The export builds one header line from the reference headers (preserved exactly,
including blanks and duplicates) and one line per row, with RFC-4180-style
quoting.  A small CSV line parser is defined as the verification instrument for
the quoting/column-alignment properties. -/

/-- `/[",\n\r]/.test(str)` of the export route. -/
def needsQuote (s : List Char) : Bool :=
  s.any (fun c => c = '"' || c = ',' || c = '\n' || c = '\r')

/-- `str.replace(/"/g, '""')`. -/
def doubleQuotes : List Char → List Char
  | [] => []
  | c :: rest =>
    if c = '"' then '"' :: '"' :: doubleQuotes rest else c :: doubleQuotes rest

/-- Quote a field exactly when it contains a delimiter, quote or line break. -/
def quoteField (s : List Char) : List Char :=
  if needsQuote s then '"' :: (doubleQuotes s ++ ['"']) else s

/-- Embeds `escapeCsv` of the export route (null/undefined becomes empty). -/
def escapeCsv (v : Option String) : List Char :=
  match v with
  | none => []
  | some s => quoteField s.data

/-- `array.join(sep)`. -/
def joinSep (sep : Char) : List (List Char) → List Char
  | [] => []
  | [x] => x
  | x :: rest => x ++ sep :: joinSep sep rest

/-- The export's header line: headers exactly as read, quoted when needed. -/
def headerLineChars (headers : List String) : List Char :=
  joinSep ',' (headers.map (fun h => quoteField h.data))

/-- One data line: a blank header intentionally produces an empty field, any other
header the escaped `row[header]`. -/
def rowLineChars (headers : List String) (row : List (String × Option String)) :
    List Char :=
  joinSep ',' (headers.map (fun h =>
    if h = "" then [] else escapeCsv ((assocGet row h).join)))

/-- Embeds the CSV assembly of POST `/export`: header line then one line per row,
joined with `\n`. -/
def buildCsv (headers : List String) (rows : List (List (String × Option String))) :
    List Char :=
  joinSep '\n' (headerLineChars headers :: rows.map (rowLineChars headers))

/-- Embeds POST `/export`: reject an absent or empty row list, else build the CSV. -/
def handleExport (headers : List String)
    (rows : Option (List (List (String × Option String)))) : Except String (List Char) :=
  match rows with
  | none => .error "No rows provided for export"
  | some rs =>
    if rs = [] then .error "No rows provided for export"
    else .ok (buildCsv headers rs)

/-- CSV parser (verification instrument): the body of a quoted field, with `""`
unescaped to `"`; returns the field content and the input after the closing quote. -/
def parseQuotedBody : List Char → Option (List Char × List Char)
  | [] => none
  | c :: rest =>
    if c = '"' then
      match rest with
      | c2 :: rest2 =>
        if c2 = '"' then (parseQuotedBody rest2).map (fun p => ('"' :: p.1, p.2))
        else some ([], rest)
      | [] => some ([], [])
    else (parseQuotedBody rest).map (fun p => (c :: p.1, p.2))

/-- Not-a-delimiter test for unquoted fields. -/
def notComma (c : Char) : Bool := !(c == ',')

/-- CSV parser: one field; returns the field value and the remaining input
(which starts with `,` when more fields follow). -/
def parseOneField (cs : List Char) : List Char × List Char :=
  match cs with
  | [] => ([], [])
  | c :: rest =>
    if c = '"' then
      match parseQuotedBody rest with
      | some p => p
      | none => (rest, [])
    else ((c :: rest).takeWhile notComma, (c :: rest).dropWhile notComma)

/-- CSV parser: a whole line into its list of (unescaped) fields. -/
def parseLineFuel : Nat → List Char → List (List Char)
  | 0, _ => []
  | fuel + 1, cs =>
    let p := parseOneField cs
    match p.2 with
    | c :: more => if c = ',' then p.1 :: parseLineFuel fuel more else [p.1]
    | [] => [p.1]

/-- CSV parser entry point with sufficient fuel. -/
def parseLine (cs : List Char) : List (List Char) :=
  parseLineFuel (cs.length + 1) cs

/-- The raw (pre-escaping) characters a row emits for a non-blank header. -/
def rawChars (v : Option String) : List Char :=
  match v with
  | none => []
  | some s => s.data

/-! ## Reference header spreadsheet (`getCoaColumnsFromExcel`, `src/utils/coaColumns.ts`)

Embeds the TypeScript source version (the authoritative one; the stale compiled
`dist/utils/coaColumns.js` still throws on a missing file).  The xlsx library is
modelled at its observable boundary: a file is absent, unreadable (read or
processing throws), or a workbook of sheets with a range and sparse cells. -/

structure CellRange where
  sr : Nat
  sc : Nat
  er : Nat
  ec : Nat
deriving Repr

structure Sheet where
  name : String
  ref : Option CellRange
  cells : List ((Nat × Nat) × Option String)
deriving Repr

structure Workbook where
  sheets : List Sheet
deriving Repr

inductive ExcelFile where
  | absent
  | present (readResult : Except String Workbook)

/-- Does `pat` occur as a leading run of `hay`? -/
def leadsWith : List Char → List Char → Bool
  | [], _ => true
  | _ :: _, [] => false
  | p :: ps, h :: hs => p = h && leadsWith ps hs

/-- Substring test (for `/database|coa/i` on the lowercased sheet name). -/
def hasSub : List Char → List Char → Bool
  | hay, pat =>
    if leadsWith pat hay then true
    else
      match hay with
      | [] => false
      | _ :: hs => hasSub hs pat

/-- `/database|coa/i.test(name)`. -/
def sheetNameMatches (n : String) : Bool :=
  hasSub (n.data.map Char.toLower) "database".data ||
    hasSub (n.data.map Char.toLower) "coa".data

/-- Sparse cell lookup (`ws[addr]`, then `cell?.v`). -/
def cellLookup : List ((Nat × Nat) × Option String) → Nat × Nat → Option (Option String)
  | [], _ => none
  | (addr, v) :: rest, a => if addr = a then some v else cellLookup rest a

/-- The `try` body of `getCoaColumnsFromExcel`: choose the preferred sheet, read
row `range.s.r + 2` across all columns of the range, preserving blanks; a missing
sheet or missing `!ref` throws (is an `.error`). -/
def readHeadersFromWorkbook (wb : Workbook) : Except String (List String) :=
  let preferred :=
    match wb.sheets.find? (fun s => sheetNameMatches s.name) with
    | some s => some s
    | none => wb.sheets.head?
  match preferred with
  | none => .error "TypeError: no sheet"
  | some ws =>
    match ws.ref with
    | none => .error "Worksheet has no range"
    | some range =>
      let headerRowIndex := range.sr + 2
      .ok ((List.range' range.sc (range.ec + 1 - range.sc)).map (fun c =>
        match cellLookup ws.cells (headerRowIndex, c) with
        | some (some v) => v
        | _ => ""))

/-- A built-in column configuration entry (only the name is relevant here); the
configuration list itself (`getPhase1Columns` of `headerConfig.ts`, not under
`src/`) is passed as a parameter. -/
structure ColumnConfig where
  name : String
deriving Repr

/-- Embeds `getCoaColumnsFromExcel` from `src/utils/coaColumns.ts`: exact headers
from the spreadsheet when available, else the built-in phase-1 column names. -/
def getCoaColumnsFromExcel (file : ExcelFile) (phase1Columns : List ColumnConfig) :
    List String :=
  match file with
  | .absent => phase1Columns.map (fun c => c.name)
  | .present (.error _) => phase1Columns.map (fun c => c.name)
  | .present (.ok wb) =>
    match readHeadersFromWorkbook wb with
    | .ok headers => headers
    | .error _ => phase1Columns.map (fun c => c.name)

/-! ## Derived LPC value (spec §4.3)

`src/python/parse_coa_pdf.py` is not under `src/`; the LPC derivation is
modelled from the spec with exact rational arithmetic. -/

/-- Modelled from the spec: `round(component_a + component_b, 2 decimal places)`
of §4.3 (the `round(lpc_sum, 2)` of the missing `parse_coa_pdf.py`), as the
integer number of hundredths. -/
def roundToHundredths (q : ℚ) : ℤ := round (q * 100)

/-- A decimal digit character (inputs are always < 10 here). -/
def decChar : Nat → Char
  | 0 => '0' | 1 => '1' | 2 => '2' | 3 => '3' | 4 => '4'
  | 5 => '5' | 6 => '6' | 7 => '7' | 8 => '8' | _ => '9'

/-- Decimal digits of a natural number (with bounded recursion depth `fuel`). -/
def natDigitsRevFuel : Nat → Nat → List Char
  | 0, _ => []
  | _ + 1, 0 => []
  | fuel + 1, n + 1 =>
    decChar ((n + 1) % 10) :: natDigitsRevFuel fuel ((n + 1) / 10)

/-- Plain decimal print of a natural number. -/
def natReprChars (n : Nat) : List Char :=
  if n = 0 then ['0'] else (natDigitsRevFuel n n).reverse

/-- The fraction digits of a number of hundredths: exactly the digits needed
(no trailing zeros, nothing for a whole number). -/
def fracChars (fr : Nat) : List Char :=
  if fr = 0 then []
  else if fr % 10 = 0 then [decChar (fr / 10)]
  else [decChar (fr / 10), decChar (fr % 10)]

/-- Modelled from the spec: format a number of hundredths as a plain decimal
string with exactly the digits needed (`str(...)` of the missing
`parse_coa_pdf.py` on the rounded value). -/
def formatHundredths (n : ℤ) : String :=
  let sign : List Char := if n < 0 then ['-'] else []
  let m := n.natAbs
  String.mk (sign ++ natReprChars (m / 100) ++
    (if fracChars (m % 100) = [] then [] else '.' :: fracChars (m % 100)))

/-- Modelled from the spec: the derived LPC parameter
`LPC = round(1-LPC + 2-LPC, 2)` formatted as a plain decimal string. -/
def lpcDerived (a b : ℚ) : String :=
  formatHundredths (roundToHundredths (a + b))

/-- Count of characters after the first `.`. -/
def decimalPlaces (s : String) : Nat :=
  match s.data.dropWhile (fun c => !(c == '.')) with
  | [] => 0
  | _ :: fr => fr.length

/-! ## Duplicate cleanup (POST `/cleanup-duplicates`)

The route fetches all of the user's records ordered by `createdAt` ascending,
groups them by the string `` `${normalizedSampleId}||${normalizedBatchId}` ``
(recomputing filename-fallback IDs for records lacking stored ones, and skipping
records that still cannot be keyed), then for each group of more than one record
merges all newer non-empty values into the oldest record and deletes the rest. -/

/-- A record with the grouping data attached (the `{...roword, extractedSampleId,
extractedBatchId}` object pushed into `recordGroups`). -/
structure Keyed where
  row : CoaRecord
  extractedSampleId : String
  extractedBatchId : String
  ns : String
  nb : String
  nKey : String
deriving DecidableEq, Repr

/-- The per-record keying step of the cleanup loop: stored IDs, filename fallback
when one is missing, skip (`none`) when still missing or when normalization yields
nothing. -/
def mkKeyed (r : CoaRecord) : Option Keyed :=
  let f := extractIdsFromFilename r.fileName
  let fb := isEmptyVal r.sampleId || isEmptyVal r.batchId
  let sampleId := if fb then jsOr r.sampleId f.sampleId else r.sampleId
  let batchId := if fb then jsOr r.batchId f.batchId else r.batchId
  if isEmptyVal sampleId || isEmptyVal batchId then none
  else
    match normalizeSampleId sampleId with
    | none => none
    | some ns =>
      let nb := String.mk (trimChars (jsStr batchId).data)
      if nb = "" then none
      else some ⟨r, jsStr sampleId, jsStr batchId, ns, nb, ns ++ "||" ++ nb⟩

/-- The grouping key as the claim states it: the pair of normalized IDs. -/
def claimPairKey (r : CoaRecord) : Option (String × String) :=
  (mkKeyed r).map (fun kr => (kr.ns, kr.nb))

/-- Append a keyed record to its group (JS object property append preserving key
insertion order). -/
def addToGroups (gs : List (String × List Keyed)) (k : String) (v : Keyed) :
    List (String × List Keyed) :=
  match gs with
  | [] => [(k, [v])]
  | (k', l) :: rest =>
    if k' = k then (k', l ++ [v]) :: rest else (k', l) :: addToGroups rest k v

/-- Build `recordGroups` by folding the cleanup loop over the records. -/
def buildGroups : List CoaRecord → List (String × List Keyed) →
    List (String × List Keyed)
  | [], gs => gs
  | r :: rest, gs =>
    match mkKeyed r with
    | none => buildGroups rest gs
    | some kr => buildGroups rest (addToGroups gs kr.nKey kr)

/-- `mergedData` under construction (`dirty` = the `hasUpdates` flag). -/
structure MergedData where
  sampleId : Option String
  batchId : Option String
  fileName : Option String
  fields : List (String × Option String)
  dirty : Bool
deriving DecidableEq, Repr

def emptyMergedData : MergedData := ⟨none, none, none, [], false⟩

/-- `mergedData[key] = value` (values stored here are always non-empty). -/
def setMergedData (md : MergedData) (k : String) (v : Option String) : MergedData :=
  if k = "fileName" then { md with fileName := v, dirty := true }
  else if k = "sampleId" then { md with sampleId := v, dirty := true }
  else if k = "batchId" then { md with batchId := v, dirty := true }
  else { md with fields := assocSet md.fields k v, dirty := true }

/-- `Object.entries(record)` minus the skipped keys (`id`, `userId`, `createdAt`,
`extractedSampleId`, `extractedBatchId`; `updatedAt` is not modelled). -/
def entriesOf (r : CoaRecord) : List (String × Option String) :=
  ("fileName", some r.fileName) :: ("sampleId", r.sampleId) ::
    ("batchId", r.batchId) :: r.fields

/-- `record[key]` as JS reads it on the master record. -/
def recVal (r : CoaRecord) (k : String) : Option String :=
  if k = "fileName" then some r.fileName
  else if k = "sampleId" then r.sampleId
  else if k = "batchId" then r.batchId
  else fieldVal r.fields k

/-- One `mergedData` assignment attempt of the collection loop. -/
def mergeEntryStep (master : Keyed) (created : Nat) (md : MergedData)
    (kv : String × Option String) : MergedData :=
  if isEmptyVal kv.2 then md
  else if isEmptyVal (recVal master.row kv.1) || master.row.createdAt < created
  then setMergedData md kv.1 kv.2
  else md

/-- Build `mergedData` for a group: the sample/batch backfill pre-step, then the
collection loop over all group records in order. -/
def buildMergedData (master : Keyed) (records : List Keyed) : MergedData :=
  let md0 := emptyMergedData
  let md1 := if isEmptyVal master.row.sampleId
    then { md0 with sampleId := some master.extractedSampleId, dirty := true } else md0
  let md2 := if isEmptyVal master.row.batchId
    then { md1 with batchId := some master.extractedBatchId, dirty := true } else md1
  records.foldl (fun md kr =>
    (entriesOf kr.row).foldl (mergeEntryStep master kr.row.createdAt) md) md2

/-- Apply `mergedData` to the master row (the `prisma.coaRecord.update`). -/
def applyMergedData (md : MergedData) (r : CoaRecord) : CoaRecord :=
  { r with
    fileName := match md.fileName with | some v => v | none => r.fileName,
    sampleId := match md.sampleId with | some v => some v | none => r.sampleId,
    batchId := match md.batchId with | some v => some v | none => r.batchId,
    fields := md.fields.foldl (fun acc kv => assocSet acc kv.1 kv.2) r.fields }

/-- `prisma.coaRecord.update({ where: { id } })`. -/
def updateById (store : List CoaRecord) (i : Nat) (f : CoaRecord → CoaRecord) :
    List CoaRecord :=
  store.map (fun r => if r.id = i then f r else r)

/-- `prisma.coaRecord.delete({ where: { id } })`. -/
def deleteById (store : List CoaRecord) (i : Nat) : List CoaRecord :=
  store.filter (fun r => !(r.id == i))

/-- Process one group: skip groups of at most one record, else update the master
with the merged data (when there is any) and delete the duplicates. -/
def processGroup (store : List CoaRecord) (group : List Keyed) : List CoaRecord :=
  match group with
  | [] => store
  | master :: dups =>
    if dups = [] then store
    else
      let md := buildMergedData master (master :: dups)
      let store1 := if md.dirty then updateById store master.row.id (applyMergedData md)
        else store
      dups.foldl (fun s d => deleteById s d.row.id) store1

def processGroups (store : List CoaRecord) : List (String × List Keyed) →
    List CoaRecord
  | [] => store
  | (_, g) :: gs => processGroups (processGroup store g) gs

/-- Embeds POST `/cleanup-duplicates` on a user's records (ordered by `createdAt`
ascending): group, then merge-and-delete per group. -/
def cleanupDuplicates (records : List CoaRecord) : List CoaRecord :=
  processGroups records (buildGroups records [])

/-- The records of the keyed entries of the record list. -/
def keyedList (records : List CoaRecord) : List Keyed :=
  records.filterMap mkKeyed

/-- The group a key collects, per the grouping semantics. -/
def groupOf (records : List CoaRecord) (k : String) : List Keyed :=
  (keyedList records).filter (fun kr => kr.nKey == k)

/-- Last-write-wins union of a sequence of values over a default: non-empty
values override, empty ones never erase. -/
def lastWins (vs : List (Option String)) (dflt : Option String) : Option String :=
  vs.foldl (fun acc v => if isEmptyVal v then acc else v) dflt

/-- A JS-representable record: association-list field keys are unique and do not
collide with the dedicated columns. -/
def recordWF (r : CoaRecord) : Prop :=
  (r.fields.map Prod.fst).Nodup ∧
    ∀ k ∈ r.fields.map Prod.fst, k ≠ "fileName" ∧ k ≠ "sampleId" ∧ k ≠ "batchId"

instance recordWF_decidable (r : CoaRecord) : Decidable (recordWF r) := by
  unfold recordWF
  infer_instance

/-- Group lookup by key (first match). -/
def lookupG : List (String × List Keyed) → String → List Keyed
  | [], _ => []
  | (k', l) :: rest, k => if k' = k then l else lookupG rest k

/-- The nested collection fold: one group record's contribution. -/
def mergeRecStep (master : Keyed) (md : MergedData) (kr : Keyed) : MergedData :=
  (entriesOf kr.row).foldl (mergeEntryStep master kr.row.createdAt) md

/-- The `mergedData` after the sample/batch backfill pre-step. -/
def preMerged (master : Keyed) : MergedData :=
  let md1 := if isEmptyVal master.row.sampleId
    then { emptyMergedData with sampleId := some master.extractedSampleId, dirty := true }
    else emptyMergedData
  if isEmptyVal master.row.batchId
    then { md1 with batchId := some master.extractedBatchId, dirty := true }
    else md1

/-- Latest assigned value over a value sequence (`none` = never assigned). -/
def latestAssigned (vs : List (Option String)) (acc : Option (Option String)) :
    Option (Option String) :=
  vs.foldl (fun acc v => if isEmptyVal v then acc else some v) acc

theorem dropWhile_self (p : Char → Bool) (l : List Char) :
    (l.dropWhile p).dropWhile p = l.dropWhile p := by
  induction l with
  | nil => rfl
  | cons c rest ih =>
    by_cases h : p c
    · simp [List.dropWhile_cons, h, ih]
    · simp [List.dropWhile_cons, h]

theorem length_dropWhile_le' (p : Char → Bool) (l : List Char) :
    (l.dropWhile p).length ≤ l.length := by
  induction l with
  | nil => simp
  | cons c rest ih =>
    by_cases h : p c
    · simp [List.dropWhile_cons, h]
      omega
    · simp [List.dropWhile_cons, h]

theorem head_not_of_dropWhile_eq (p : Char → Bool) (l : List Char)
    (h : l.dropWhile p = l) (c : Char) (u : List Char) (hc : l = c :: u) :
    p c = false := by
  by_contra hpc
  have hpc' : p c = true := by
    cases hp : p c
    · exact absurd hp hpc
    · rfl
  rw [hc, List.dropWhile_cons, if_pos hpc'] at h
  have hlen := length_dropWhile_le' p u
  rw [h] at hlen
  simp at hlen

/-- The front-trim of a back-trimmed list is the identity when the original list
had no leading match. -/
theorem dropWhile_reverse_dropWhile_reverse (p : Char → Bool) (A : List Char)
    (hA : A.dropWhile p = A) :
    ((A.reverse.dropWhile p).reverse).dropWhile p = (A.reverse.dropWhile p).reverse := by
  have hsplit := List.takeWhile_append_dropWhile (p := p) (l := A.reverse)
  have hA2 : (A.reverse.dropWhile p).reverse ++ (A.reverse.takeWhile p).reverse = A := by
    rw [← List.reverse_append, hsplit, List.reverse_reverse]
  cases hBr : (A.reverse.dropWhile p).reverse with
  | nil => rfl
  | cons c u =>
    rw [hBr] at hA2
    have hc : p c = false :=
      head_not_of_dropWhile_eq p A hA c (u ++ (A.reverse.takeWhile p).reverse) hA2.symm
    rw [List.dropWhile_cons, hc]
    simp

/-- `trimChars` is idempotent. -/
theorem trimChars_idem (l : List Char) : trimChars (trimChars l) = trimChars l := by
  have hAself : (l.dropWhile isWs).dropWhile isWs = l.dropWhile isWs :=
    dropWhile_self isWs l
  have h1 : (trimChars l).dropWhile isWs = trimChars l :=
    dropWhile_reverse_dropWhile_reverse isWs (l.dropWhile isWs) hAself
  show (((trimChars l).dropWhile isWs).reverse.dropWhile isWs).reverse = trimChars l
  rw [h1]
  show ((((((l.dropWhile isWs).reverse.dropWhile isWs).reverse).reverse).dropWhile isWs).reverse)
      = trimChars l
  rw [List.reverse_reverse, dropWhile_self]
  rfl

/-- C3: whitespace/case/prefix variants of the same sample ID all normalize to
`"20243602"`, and an input that is empty or reduces to nothing after trimming and
stripping the leading `M` normalizes to the absent value (`none`). -/
theorem normalizeSampleId_canonical :
    (normalizeSampleId (some "M20243602") = some "20243602" ∧
     normalizeSampleId (some "M 20243602") = some "20243602" ∧
     normalizeSampleId (some "m20243602") = some "20243602" ∧
     normalizeSampleId (some "m 20243602") = some "20243602" ∧
     normalizeSampleId (some "20243602") = some "20243602") ∧
    (∀ s : String, trimChars (stripLeadingM (trimChars s.data)) = [] →
      normalizeSampleId (some s) = none) := by
  constructor
  · exact ⟨by decide, by decide, by decide, by decide, by decide⟩
  · intro s h
    by_cases hd : s.data = [] <;>
      simp [normalizeSampleId, normalizeSampleIdChars, hd, h]

/-- C3 witness: the always-whitespace input `"  "` normalizes to `none`. -/
theorem normalizeSampleId_canonical_witness :
    normalizeSampleId (some "  ") = none :=
  normalizeSampleId_canonical.2 "  " (by decide)

/-- C4 counterexample: normalization is not idempotent; a sample ID with a doubled
`M` prefix loses one `M` per application, so a second application changes the result. -/
theorem normalizeSampleId_not_idempotent :
    normalizeSampleId (normalizeSampleId (some "MM20243602")) ≠
      normalizeSampleId (some "MM20243602") := by decide

theorem normalizeSampleIdChars_shape (l : List Char) (t : List Char)
    (h : normalizeSampleIdChars l = some t) :
    t = trimChars (stripLeadingM (trimChars l)) ∧ t ≠ [] := by
  unfold normalizeSampleIdChars at h
  by_cases hl : l = []
  · simp [hl] at h
  · simp only [hl, if_false] at h
    by_cases hw : trimChars (stripLeadingM (trimChars l)) = []
    · simp [hw] at h
    · simp only [hw, if_false, Option.some.injEq] at h
      exact ⟨h.symm, h ▸ hw⟩

theorem normalizeSampleIdChars_eq_some (l : List Char) (hne : l ≠ [])
    (hw : trimChars (stripLeadingM (trimChars l)) = l) :
    normalizeSampleIdChars l = some l := by
  unfold normalizeSampleIdChars
  simp [hne, hw]

/-- C4 (amended): normalization is idempotent for every input whose normalized form
does not itself start with a case-insensitive `M`; in general a second application
strips a further leading `M` from the first application's result. -/
theorem normalizeSampleId_idempotent_of_headNotM (s : Option String)
    (h : ∀ t : String, normalizeSampleId s = some t → headIsM t.data = false) :
    normalizeSampleId (normalizeSampleId s) = normalizeSampleId s := by
  match s with
  | none => rfl
  | some str =>
    cases hn : normalizeSampleId (some str) with
    | none => rfl
    | some t =>
      have hM : headIsM t.data = false := h t hn
      -- characterize t as the (nonempty) trimmed and stripped form
      have hn' : (normalizeSampleIdChars str.data).map (fun l => String.mk l) = some t := hn
      cases hc : normalizeSampleIdChars str.data with
      | none => rw [hc] at hn'; simp at hn'
      | some u =>
        rw [hc] at hn'
        have ht : String.mk u = t := Option.some.inj hn'
        obtain ⟨hu, hne⟩ := normalizeSampleIdChars_shape str.data u hc
        have htdata : t.data = u := by rw [← ht]
        -- normalizing t again is the identity
        have htrim : trimChars t.data = t.data := by
          rw [htdata, hu]; exact trimChars_idem _
        have hstrip : stripLeadingM t.data = t.data := by
          cases htd : t.data with
          | nil => rfl
          | cons c rest =>
            have hcc : (c = 'M' || c = 'm') = false := by
              have hM' := hM
              rw [htd] at hM'
              exact hM'
            have hcM : ¬(c = 'M' ∨ c = 'm') := by
              intro hor
              cases hor with
              | inl h1 => simp [h1] at hcc
              | inr h2 => simp [h2] at hcc
            show (if c = 'M' ∨ c = 'm' then rest.dropWhile isWs else c :: rest) = c :: rest
            rw [if_neg hcM]
        have htne : t.data ≠ [] := by rw [htdata]; exact hne
        have hw : trimChars (stripLeadingM (trimChars t.data)) = t.data := by
          rw [htrim, hstrip, htrim]
        show (normalizeSampleIdChars t.data).map (fun l => String.mk l) = some t
        rw [normalizeSampleIdChars_eq_some t.data htne hw]
        cases t
        rfl

/-- C4 amended witness: a single-`M` sample ID normalizes to a digit string, on
which normalization is idempotent. -/
theorem normalizeSampleId_idempotent_witness :
    normalizeSampleId (normalizeSampleId (some "M20243602")) =
      normalizeSampleId (some "M20243602") :=
  normalizeSampleId_idempotent_of_headNotM (some "M20243602") (by decide)

/-- C5: the documented filename yields batch `"BA001734"` and sample `"M20253004"`,
and the same pair is extracted for an arbitrary trailing lab-name token; internal
whitespace in a matched sample code is stripped from the returned sample ID. -/
theorem extractIdsFromFilename_spec :
    (∀ lab : List Char,
       extractIdsFromFilenameChars ("BA001734 - M20253004 - ".data ++ lab) =
         (some "BA001734".data, some "M20253004".data)) ∧
    extractIdsFromFilename "BA001734 - M 20253004 - Ali.pdf" =
      ⟨some "BA001734", some "M20253004"⟩ := by
  constructor
  · intro lab
    rfl
  · rfl

/-! ## Association-list lemmas -/

theorem assocGet_assocSet_same {β : Type} (l : List (String × β)) (k : String) (v : β) :
    assocGet (assocSet l k v) k = some v := by
  induction l with
  | nil => simp [assocSet, assocGet]
  | cons kv rest ih =>
    obtain ⟨k', v'⟩ := kv
    by_cases h : k' = k
    · simp [assocSet, h, assocGet]
    · simp [assocSet, h, assocGet, ih]

theorem assocGet_assocSet_ne {β : Type} (l : List (String × β)) (kset kget : String)
    (v : β) (h : kget ≠ kset) :
    assocGet (assocSet l kset v) kget = assocGet l kget := by
  induction l with
  | nil => simp [assocSet, assocGet, Ne.symm h]
  | cons kv rest ih =>
    obtain ⟨k', v'⟩ := kv
    by_cases h' : k' = kset
    · simp [assocSet, h', assocGet, Ne.symm h]
    · simp only [assocSet, if_neg h', assocGet]
      by_cases h2 : k' = kget
      · simp [h2]
      · simp [h2, ih]

theorem applyFA_get_not_mem (upd : List (String × Option String))
    (base : List (String × Option String)) (k : String)
    (h : k ∉ upd.map Prod.fst) :
    assocGet (applyFieldAssignments base upd) k = assocGet base k := by
  induction upd generalizing base with
  | nil => rfl
  | cons kv rest ih =>
    obtain ⟨k0, v0⟩ := kv
    simp only [List.map_cons, List.mem_cons] at h
    push_neg at h
    show assocGet
        (applyFieldAssignments (if isEmptyVal v0 then base else assocSet base k0 v0) rest) k
      = assocGet base k
    rw [ih _ h.2]
    by_cases he : isEmptyVal v0
    · simp [he]
    · simp [he, assocGet_assocSet_ne base k0 k v0 (fun hh => h.1 hh)]

/-- How a column reads after the `updateData` application: a non-empty update value
wins, an empty or missing one leaves the previous value. -/
theorem applyFA_get (upd : List (String × Option String))
    (hnd : (upd.map Prod.fst).Nodup) (base : List (String × Option String)) (k : String) :
    assocGet (applyFieldAssignments base upd) k =
      match assocGet upd k with
      | some v => if isEmptyVal v then assocGet base k else some v
      | none => assocGet base k := by
  induction upd generalizing base with
  | nil => rfl
  | cons kv rest ih =>
    obtain ⟨k0, v0⟩ := kv
    simp only [List.map_cons, List.nodup_cons] at hnd
    show assocGet
        (applyFieldAssignments (if isEmptyVal v0 then base else assocSet base k0 v0) rest) k
      = _
    by_cases hk : k0 = k
    · subst hk
      rw [applyFA_get_not_mem rest _ k0 hnd.1]
      by_cases he : isEmptyVal v0
      · simp [assocGet, he]
      · simp [assocGet, he, assocGet_assocSet_same]
    · have hb : assocGet (if isEmptyVal v0 then base else assocSet base k0 v0) k
          = assocGet base k := by
        by_cases he : isEmptyVal v0
        · simp [he]
        · simp [he, assocGet_assocSet_ne base k0 k v0 (fun hh => hk hh.symm)]
      rw [ih hnd.2]
      have hskip : assocGet ((k0, v0) :: rest) k = assocGet rest k := by
        simp [assocGet, hk]
      rw [hskip]
      cases hr : assocGet rest k with
      | none => simp [hb]
      | some v => simp [hb]

/-- C2: for an upsert that matches an existing record of the same user on the same
normalized sample+batch key, the store update replaces only the matched record by
the merge of the extraction into it; in the merged record, a column whose incoming
value is null/undefined or `""` (or absent) keeps its previous value, and a column
with a non-empty incoming value takes it. -/
theorem upsertCoaRecord_nondestructive_merge
    (store : List CoaRecord) (userId fileName : String) (dbData : DbData)
    (newId now : Nat) (ns nb : String) (rec : CoaRecord)
    (h1 : isEmptyVal dbData.sampleId = false)
    (h2 : isEmptyVal dbData.batchId = false)
    (h3 : normalizeSampleId dbData.sampleId = some ns)
    (h4 : String.mk (trimChars (jsStr dbData.batchId).data) = nb)
    (h5 : nb ≠ "")
    (h6 : store.find? (isUpsertMatch userId nb ns) = some rec)
    (hnd : (dbData.fields.map Prod.fst).Nodup) :
    upsertCoaRecord store userId fileName dbData newId now =
        store.map (fun r =>
          if r.id = rec.id then applyUpdateToRecord r dbData fileName else r) ∧
    (∀ k v, assocGet dbData.fields k = some v → isEmptyVal v = true →
        fieldVal (applyUpdateToRecord rec dbData fileName).fields k
          = fieldVal rec.fields k) ∧
    (∀ k, assocGet dbData.fields k = none →
        fieldVal (applyUpdateToRecord rec dbData fileName).fields k
          = fieldVal rec.fields k) ∧
    (∀ k v, assocGet dbData.fields k = some v → isEmptyVal v = false →
        fieldVal (applyUpdateToRecord rec dbData fileName).fields k = v) := by
  refine ⟨?_, ?_, ?_, ?_⟩
  · unfold upsertCoaRecord
    simp only [h1, h2, Bool.or_self, Bool.false_eq_true, if_false, h3, h4, h5, h6]
  · intro k v hget he
    show fieldVal (applyFieldAssignments rec.fields dbData.fields) k = fieldVal rec.fields k
    unfold fieldVal
    rw [applyFA_get dbData.fields hnd rec.fields k, hget]
    simp [he]
  · intro k hget
    show fieldVal (applyFieldAssignments rec.fields dbData.fields) k = fieldVal rec.fields k
    unfold fieldVal
    rw [applyFA_get dbData.fields hnd rec.fields k, hget]
  · intro k v hget he
    show fieldVal (applyFieldAssignments rec.fields dbData.fields) k = v
    unfold fieldVal
    rw [applyFA_get dbData.fields hnd rec.fields k, hget]
    simp [he]

/-- C2 witness: an existing record `(ai: "5.0", lead: null)` merged with an incoming
extraction `(ai: null, lead: "0.2")` for the same normalized sample+batch yields
`(ai: "5.0", lead: "0.2")`. -/
theorem upsertCoaRecord_nondestructive_merge_witness :
    fieldVal (applyUpdateToRecord
        ⟨1, some "u", "old.pdf", some "M20243602", some "BA001100",
          [("ai", some "5.0"), ("lead", none)], 0⟩
        ⟨some "M20243602", some "BA001100", [("ai", none), ("lead", some "0.2")]⟩
        "new.pdf").fields "ai" = some "5.0" ∧
    fieldVal (applyUpdateToRecord
        ⟨1, some "u", "old.pdf", some "M20243602", some "BA001100",
          [("ai", some "5.0"), ("lead", none)], 0⟩
        ⟨some "M20243602", some "BA001100", [("ai", none), ("lead", some "0.2")]⟩
        "new.pdf").fields "lead" = some "0.2" := by
  have h := upsertCoaRecord_nondestructive_merge
    [⟨1, some "u", "old.pdf", some "M20243602", some "BA001100",
       [("ai", some "5.0"), ("lead", none)], 0⟩]
    "u" "new.pdf"
    ⟨some "M20243602", some "BA001100", [("ai", none), ("lead", some "0.2")]⟩
    7 3 "20243602" "BA001100"
    ⟨1, some "u", "old.pdf", some "M20243602", some "BA001100",
      [("ai", some "5.0"), ("lead", none)], 0⟩
    (by decide) (by decide) (by decide) (by decide) (by decide) (by decide) (by decide)
  exact ⟨(h.2.1 "ai" none (by decide) (by decide)).trans (by decide),
         h.2.2.2 "lead" (some "0.2") (by decide) (by decide)⟩

/-- C10: the bulk delete removes exactly the requested ids owned by the requesting
user; records of other users or unowned records survive even when listed, and the
reported count is the number of records actually removed. -/
theorem deleteManyCoaRecords_user_scoped (store : List CoaRecord) (userId : String)
    (recordIds : List Nat) :
    (∀ r, r ∈ (deleteManyCoaRecords store userId recordIds).1 ↔
        r ∈ store ∧ ¬(r.userId = some userId ∧ r.id ∈ recordIds)) ∧
    (deleteManyCoaRecords store userId recordIds).2 =
      (store.filter (fun r => decide (r.userId = some userId ∧ r.id ∈ recordIds))).length := by
  constructor
  · intro r
    simp only [deleteManyCoaRecords, List.mem_filter]
    constructor
    · rintro ⟨hmem, hp⟩
      refine ⟨hmem, ?_⟩
      rintro ⟨hu, hid⟩
      simp [hu, hid] at hp
    · rintro ⟨hmem, hp⟩
      refine ⟨hmem, ?_⟩
      by_cases hu : r.userId = some userId
      · by_cases hid : r.id ∈ recordIds
        · exact absurd ⟨hu, hid⟩ hp
        · simp [hu, hid]
      · simp [hu]
  · show ((store.filter fun r => recordIds.contains r.id && r.userId == some userId).length) = _
    congr 1
    apply List.filter_congr
    intro r _
    by_cases hu : r.userId = some userId
    · by_cases hid : r.id ∈ recordIds
      · simp [hu, hid]
      · simp [hu, hid]
    · simp [hu]

theorem processUploadLoop_all_ok (userId : String) (total : Nat)
    (files : List UploadFile) (hok : ∀ f ∈ files, ∃ p, f.parseOutcome = .ok p) :
    ∀ store results savedCount nextId now,
      processUploadLoop userId total files store results savedCount nextId now =
        (persistAll userId files store nextId now,
         .ok ⟨results ++ files.map (fun f => (f.originalname, parsedOf f)),
              savedCount + (files.filter (fun f => !f.saveFails)).length, total⟩) := by
  induction files with
  | nil => intro store results savedCount nextId now; simp [processUploadLoop, persistAll]
  | cons f rest ih =>
    intro store results savedCount nextId now
    obtain ⟨p, hp⟩ := hok f (List.mem_cons_self f rest)
    have hrest : ∀ g ∈ rest, ∃ q, g.parseOutcome = .ok q := by
      intro g hg; exact hok g (List.mem_cons_of_mem f hg)
    show (match f.parseOutcome with
      | .error e => (store, Except.error ("Failed to process PDFs: " ++ e))
      | .ok parsed =>
        let dbData := mapExtractedDataToDbFields parsed
        let store' := if f.saveFails then store
          else upsertCoaRecord store userId f.originalname dbData nextId now
        let savedCount' := if f.saveFails then savedCount else savedCount + 1
        processUploadLoop userId total rest store'
          (results ++ [(f.originalname, parsed)]) savedCount' (nextId + 1) (now + 1)) = _
    rw [hp]
    simp only []
    rw [ih hrest]
    have hparsed : parsedOf f = p := by simp [parsedOf, hp]
    have hpersist : persistAll userId (f :: rest) store nextId now =
        persistAll userId rest
          (if f.saveFails then store
           else upsertCoaRecord store userId f.originalname
             (mapExtractedDataToDbFields p) nextId now) (nextId + 1) (now + 1) := by
      show (match f.parseOutcome with
        | .error _ => store
        | .ok parsed =>
          let store' := if f.saveFails then store
            else upsertCoaRecord store userId f.originalname
              (mapExtractedDataToDbFields parsed) nextId now
          persistAll userId rest store' (nextId + 1) (now + 1)) = _
      rw [hp]
    rw [hpersist]
    cases hs : f.saveFails with
    | false => simp [hs, hparsed]; omega
    | true => simp [hs, hparsed]

theorem processUploadLoop_stops_at_error (userId : String) (total : Nat)
    (pre : List UploadFile) (hok : ∀ g ∈ pre, ∃ p, g.parseOutcome = .ok p)
    (f : UploadFile) (post : List UploadFile) (e : String)
    (he : f.parseOutcome = .error e) :
    ∀ store results savedCount nextId now,
      processUploadLoop userId total (pre ++ f :: post) store results savedCount nextId now =
        (persistAll userId pre store nextId now,
         .error ("Failed to process PDFs: " ++ e)) := by
  induction pre with
  | nil =>
    intro store results savedCount nextId now
    show (match f.parseOutcome with
      | .error e => (store, Except.error ("Failed to process PDFs: " ++ e))
      | .ok parsed =>
        let dbData := mapExtractedDataToDbFields parsed
        let store' := if f.saveFails then store
          else upsertCoaRecord store userId f.originalname dbData nextId now
        let savedCount' := if f.saveFails then savedCount else savedCount + 1
        processUploadLoop userId total post store'
          (results ++ [(f.originalname, parsed)]) savedCount' (nextId + 1) (now + 1)) = _
    rw [he]
    rfl
  | cons g rest ih =>
    intro store results savedCount nextId now
    obtain ⟨p, hp⟩ := hok g (List.mem_cons_self g rest)
    have hrest : ∀ g' ∈ rest, ∃ q, g'.parseOutcome = .ok q := by
      intro g' hg; exact hok g' (List.mem_cons_of_mem g hg)
    show (match g.parseOutcome with
      | .error e => (store, Except.error ("Failed to process PDFs: " ++ e))
      | .ok parsed =>
        let dbData := mapExtractedDataToDbFields parsed
        let store' := if g.saveFails then store
          else upsertCoaRecord store userId g.originalname dbData nextId now
        let savedCount' := if g.saveFails then savedCount else savedCount + 1
        processUploadLoop userId total (rest ++ f :: post) store'
          (results ++ [(g.originalname, parsed)]) savedCount' (nextId + 1) (now + 1)) = _
    rw [hp]
    simp only []
    rw [ih hrest]
    have hpersist : persistAll userId (g :: rest) store nextId now =
        persistAll userId rest
          (if g.saveFails then store
           else upsertCoaRecord store userId g.originalname
             (mapExtractedDataToDbFields p) nextId now) (nextId + 1) (now + 1) := by
      show (match g.parseOutcome with
        | .error _ => store
        | .ok parsed =>
          let store' := if g.saveFails then store
            else upsertCoaRecord store userId g.originalname
              (mapExtractedDataToDbFields parsed) nextId now
          persistAll userId rest store' (nextId + 1) (now + 1)) = _
      rw [hp]
    rw [hpersist]

/-- C1 counterexample: a 3-document batch whose second document's extraction fails
does not report the failure per-file and does not process the remaining document:
the whole request fails with one batch-level error, only document 1's record is
persisted, and document 3 — whose extraction would succeed — is never persisted. -/
theorem uploadBatch_failure_not_isolated :
    (handleUpload "u"
      [⟨"BA000001 - M20250001 - Lab.pdf", .ok [("AI", some "1.0")], false⟩,
       ⟨"broken.pdf", .error "Python exited with code 1", false⟩,
       ⟨"BA000002 - M20250002 - Lab.pdf", .ok [("AI", some "2.0")], false⟩]
      [] 10 0).2 = .error "Failed to process PDFs: Python exited with code 1" ∧
    ((handleUpload "u"
      [⟨"BA000001 - M20250001 - Lab.pdf", .ok [("AI", some "1.0")], false⟩,
       ⟨"broken.pdf", .error "Python exited with code 1", false⟩,
       ⟨"BA000002 - M20250002 - Lab.pdf", .ok [("AI", some "2.0")], false⟩]
      [] 10 0).1).length = 1 := by
  constructor
  · rfl
  · rfl

/-- C1 (amended): a record-store write failure is isolated per-file — with all
extractions succeeding, every file is processed, the response reports the number
of successfully persisted files, and the store receives exactly the per-file
upserts of the non-failing writes; an extraction failure instead aborts the batch
with a whole-request error, leaving the store effects of the earlier documents in
place (no rollback) and the remaining documents unprocessed. -/
theorem handleUpload_batch_behavior (userId : String) (files : List UploadFile)
    (store : List CoaRecord) (nextId now : Nat) (hne : files ≠ []) :
    ((∀ f ∈ files, ∃ p, f.parseOutcome = .ok p) →
      handleUpload userId files store nextId now =
        (persistAll userId files store nextId now,
         .ok ⟨files.map (fun f => (f.originalname, parsedOf f)),
              (files.filter (fun f => !f.saveFails)).length, files.length⟩)) ∧
    (∀ pre f post e, files = pre ++ f :: post →
      (∀ g ∈ pre, ∃ p, g.parseOutcome = .ok p) →
      f.parseOutcome = .error e →
      handleUpload userId files store nextId now =
        (persistAll userId pre store nextId now,
         .error ("Failed to process PDFs: " ++ e))) := by
  have hlen : ¬ files.length = 0 := by
    intro h
    exact hne (List.length_eq_zero.mp h)
  constructor
  · intro hok
    unfold handleUpload
    rw [if_neg hlen]
    rw [processUploadLoop_all_ok userId files.length files hok store [] 0 nextId now]
    simp
  · intro pre f post e hsplit hok he
    subst hsplit
    unfold handleUpload
    rw [if_neg hlen]
    rw [processUploadLoop_stops_at_error userId (pre ++ f :: post).length pre hok f post e he
      store [] 0 nextId now]

/-- C1 amended witness: a 2-document batch whose second document's extraction
fails returns the batch-level error and keeps document 1's persisted record. -/
theorem handleUpload_batch_behavior_witness :
    handleUpload "u"
        [⟨"a.pdf", .ok [("AI", some "1")], false⟩, ⟨"b.pdf", .error "bad PDF", false⟩]
        [] 5 0 =
      (persistAll "u" [⟨"a.pdf", .ok [("AI", some "1")], false⟩] [] 5 0,
       .error "Failed to process PDFs: bad PDF") := by
  have h := (handleUpload_batch_behavior "u"
    [⟨"a.pdf", .ok [("AI", some "1")], false⟩, ⟨"b.pdf", .error "bad PDF", false⟩]
    [] 5 0 (by simp)).2
    [⟨"a.pdf", .ok [("AI", some "1")], false⟩] ⟨"b.pdf", .error "bad PDF", false⟩
    [] "bad PDF" rfl ?_ rfl
  · exact h
  · intro g hg
    simp only [List.mem_singleton] at hg
    subst hg
    exact ⟨_, rfl⟩

theorem takeWhile_append_all {α : Type} (p : α → Bool) (v rest : List α)
    (h : ∀ c ∈ v, p c = true) :
    (v ++ rest).takeWhile p = v ++ rest.takeWhile p := by
  induction v with
  | nil => rfl
  | cons c w ih =>
    simp only [List.cons_append, List.takeWhile_cons, h c (List.mem_cons_self c w),
      if_true]
    rw [ih (fun x hx => h x (List.mem_cons_of_mem c hx))]

theorem dropWhile_append_all {α : Type} (p : α → Bool) (v rest : List α)
    (h : ∀ c ∈ v, p c = true) :
    (v ++ rest).dropWhile p = rest.dropWhile p := by
  induction v with
  | nil => rfl
  | cons c w ih =>
    simp only [List.cons_append, List.dropWhile_cons, h c (List.mem_cons_self c w),
      if_true]
    exact ih (fun x hx => h x (List.mem_cons_of_mem c hx))

theorem parseQuotedBody_roundtrip (v rest : List Char)
    (hrest : rest.head? ≠ some '"') :
    parseQuotedBody (doubleQuotes v ++ '"' :: rest) = some (v, rest) := by
  induction v with
  | nil =>
    show parseQuotedBody ('"' :: rest) = some ([], rest)
    cases rest with
    | nil => rfl
    | cons c2 rest2 =>
      have hc2 : ¬ c2 = '"' := by
        intro h
        rw [h] at hrest
        simp at hrest
      show (if c2 = '"'
        then (parseQuotedBody rest2).map (fun p => ('"' :: p.1, p.2))
        else some ([], c2 :: rest2)) = some ([], c2 :: rest2)
      rw [if_neg hc2]
  | cons c w ih =>
    by_cases hc : c = '"'
    · subst hc
      show parseQuotedBody ('"' :: '"' :: (doubleQuotes w ++ '"' :: rest))
        = some ('"' :: w, rest)
      show (parseQuotedBody (doubleQuotes w ++ '"' :: rest)).map
          (fun p => ('"' :: p.1, p.2)) = some ('"' :: w, rest)
      rw [ih]
      rfl
    · have hdq : doubleQuotes (c :: w) = c :: doubleQuotes w := by
        simp [doubleQuotes, hc]
      rw [hdq, List.cons_append]
      show parseQuotedBody (c :: (doubleQuotes w ++ '"' :: rest)) = some (c :: w, rest)
      rw [parseQuotedBody.eq_def]
      simp only [if_neg hc]
      rw [ih]
      rfl

theorem needsQuote_false_mem (v : List Char) (hq : needsQuote v = false) :
    ∀ c ∈ v, c ≠ '"' ∧ notComma c = true := by
  intro c hc
  unfold needsQuote at hq
  rw [List.any_eq_false] at hq
  have h := hq c hc
  constructor
  · intro hcq
    rw [hcq] at h
    simp at h
  · unfold notComma
    by_cases hcc : c = ','
    · rw [hcc] at h
      simp at h
    · simp [hcc]

theorem parseOneField_unquoted (v rest : List Char) (hq : needsQuote v = false)
    (hrest : rest = [] ∨ ∃ more, rest = ',' :: more) :
    parseOneField (v ++ rest) = (v, rest) := by
  have hmem := needsQuote_false_mem v hq
  have htw : rest.takeWhile notComma = [] := by
    rcases hrest with h | ⟨more, h⟩ <;> subst h
    · rfl
    · simp [List.takeWhile_cons, notComma]
  have hdw : rest.dropWhile notComma = rest := by
    rcases hrest with h | ⟨more, h⟩ <;> subst h
    · rfl
    · simp [List.dropWhile_cons, notComma]
  cases v with
  | nil =>
    rcases hrest with h | ⟨more, h⟩ <;> subst h
    · rfl
    · show parseOneField (',' :: more) = ([], ',' :: more)
      have hcq : ¬ (',' : Char) = '"' := by decide
      simp only [parseOneField, if_neg hcq]
      rw [List.takeWhile_cons, List.dropWhile_cons]
      simp [notComma]
  | cons c w =>
    have hc : ¬ c = '"' := (hmem c (List.mem_cons_self c w)).1
    show parseOneField (c :: (w ++ rest)) = (c :: w, rest)
    simp only [parseOneField, if_neg hc]
    rw [show c :: (w ++ rest) = (c :: w) ++ rest from rfl]
    rw [takeWhile_append_all notComma (c :: w) rest (fun x hx => (hmem x hx).2),
        dropWhile_append_all notComma (c :: w) rest (fun x hx => (hmem x hx).2)]
    rw [htw, hdw, List.append_nil]

theorem parseOneField_quoteField (v rest : List Char)
    (hrest : rest = [] ∨ ∃ more, rest = ',' :: more) :
    parseOneField (quoteField v ++ rest) = (v, rest) := by
  by_cases hq : needsQuote v = true
  · have hqf : quoteField v = '"' :: (doubleQuotes v ++ ['"']) := by
      simp [quoteField, hq]
    rw [hqf]
    have hassoc : ('"' :: (doubleQuotes v ++ ['"'])) ++ rest
        = '"' :: (doubleQuotes v ++ '"' :: rest) := by
      simp
    rw [hassoc]
    have hhead : rest.head? ≠ some '"' := by
      rcases hrest with h | ⟨more, h⟩ <;> subst h
      · simp
      · simp
    have hq2 : ¬ ('"' : Char) = '"' ∨ True := Or.inr trivial
    show (match parseQuotedBody (doubleQuotes v ++ '"' :: rest) with
      | some p => p
      | none => (doubleQuotes v ++ '"' :: rest, [])) = (v, rest)
    rw [parseQuotedBody_roundtrip v rest hhead]
  · have hq' : needsQuote v = false := by
      cases h : needsQuote v
      · rfl
      · exact absurd h hq
    have hqf : quoteField v = v := by simp [quoteField, hq']
    rw [hqf]
    exact parseOneField_unquoted v rest hq' hrest

theorem joinSep_length_ge (sep : Char) (xs : List (List Char)) :
    xs.length ≤ (joinSep sep xs).length + 1 := by
  induction xs with
  | nil => simp [joinSep]
  | cons x rest ih =>
    cases rest with
    | nil => simp [joinSep]
    | cons y rest2 =>
      show (x :: y :: rest2).length ≤ (x ++ sep :: joinSep sep (y :: rest2)).length + 1
      simp only [List.length_cons, List.length_append] at *
      omega

theorem parseLineFuel_join (fields : List (List Char)) :
    ∀ fuel, fields.length ≤ fuel → fields ≠ [] →
      parseLineFuel fuel (joinSep ',' (fields.map quoteField)) = fields := by
  induction fields with
  | nil => intro fuel _ hne; exact absurd rfl hne
  | cons f rest ih =>
    intro fuel hfuel _
    cases fuel with
    | zero => simp at hfuel
    | succ fuel' =>
      cases rest with
      | nil =>
        show parseLineFuel (fuel' + 1) (joinSep ',' [quoteField f]) = [f]
        have hp : parseOneField (quoteField f) = (f, []) := by
          have h := parseOneField_quoteField f [] (Or.inl rfl)
          simpa using h
        show (match (parseOneField (quoteField f)).2 with
          | c :: more => if c = ','
              then (parseOneField (quoteField f)).1 :: parseLineFuel fuel' more
              else [(parseOneField (quoteField f)).1]
          | [] => [(parseOneField (quoteField f)).1]) = [f]
        rw [hp]
      | cons g rest2 =>
        have hjoin : joinSep ',' ((f :: g :: rest2).map quoteField) =
            quoteField f ++ ',' :: joinSep ',' ((g :: rest2).map quoteField) := rfl
        have hp := parseOneField_quoteField f
          (',' :: joinSep ',' ((g :: rest2).map quoteField)) (Or.inr ⟨_, rfl⟩)
        show (match (parseOneField (joinSep ',' ((f :: g :: rest2).map quoteField))).2 with
          | c :: more => if c = ','
              then (parseOneField (joinSep ',' ((f :: g :: rest2).map quoteField))).1
                :: parseLineFuel fuel' more
              else [(parseOneField (joinSep ',' ((f :: g :: rest2).map quoteField))).1]
          | [] => [(parseOneField (joinSep ',' ((f :: g :: rest2).map quoteField))).1])
          = f :: g :: rest2
        rw [hjoin, hp]
        show (if (',' : Char) = ','
            then f :: parseLineFuel fuel' (joinSep ',' (List.map quoteField (g :: rest2)))
            else [f]) = f :: g :: rest2
        rw [if_pos rfl]
        rw [ih fuel' (by simpa using Nat.le_of_succ_le_succ hfuel) (by simp)]

theorem parseLine_join (fields : List (List Char)) (hne : fields ≠ []) :
    parseLine (joinSep ',' (fields.map quoteField)) = fields := by
  unfold parseLine
  apply parseLineFuel_join fields _ _ hne
  have h1 := joinSep_length_ge ',' (fields.map quoteField)
  simp only [List.length_map] at h1
  omega

theorem escapeCsv_eq_quoteField_rawChars (v : Option String) :
    escapeCsv v = quoteField (rawChars v) := by
  cases v with
  | none => rfl
  | some s => rfl

/-- C7: the export's header line is the reference sequence joined by `,` (exactly,
including blanks and duplicates, whenever no header needs quoting — the concrete
`["Sample #", "", "Batch"]` yields the line `Sample #,,Batch`), and every data row
parses back (under RFC-4180 unquoting) to exactly one field per header — an empty
field at each blank header, and the row's exact value at every other header — so
columns never shift and quoting/escaping is correct for arbitrary values. -/
theorem csvExport_format :
    (headerLineChars ["Sample #", "", "Batch"] = "Sample #,,Batch".data) ∧
    (∀ headers : List String, (∀ h ∈ headers, needsQuote h.data = false) →
       headerLineChars headers = joinSep ',' (headers.map String.data)) ∧
    (∀ (headers : List String) (row : List (String × Option String)), headers ≠ [] →
       parseLine (rowLineChars headers row) =
         headers.map (fun h => if h = "" then [] else rawChars ((assocGet row h).join))) := by
  refine ⟨by rfl, ?_, ?_⟩
  · intro headers hq
    unfold headerLineChars
    congr 1
    apply List.map_congr_left
    intro h hmem
    simp [quoteField, hq h hmem]
  · intro headers row hne
    have hrw : rowLineChars headers row =
        joinSep ','
          ((headers.map (fun h => if h = "" then [] else rawChars ((assocGet row h).join))).map
            quoteField) := by
      unfold rowLineChars
      congr 1
      rw [List.map_map]
      apply List.map_congr_left
      intro h _
      by_cases hb : h = ""
      · simp [hb, quoteField, needsQuote]
      · simp only [hb, if_false, Function.comp]
        exact escapeCsv_eq_quoteField_rawChars _
    rw [hrw]
    apply parseLine_join
    intro hcon
    rw [List.map_eq_nil_iff] at hcon
    exact hne hcon

/-- C7 witness: a concrete row under the blank-header reference sequence parses
back to one field per header with the blank column empty and a comma-containing
value correctly quoted. -/
theorem csvExport_format_witness :
    parseLine (rowLineChars ["Sample #", "", "Batch"]
        [("Sample #", some "M1"), ("Batch", some "B,1")]) =
      [['M', '1'], [], ['B', ',', '1']] := by
  have h := csvExport_format.2.2 ["Sample #", "", "Batch"]
    [("Sample #", some "M1"), ("Batch", some "B,1")] (by simp)
  rw [h]
  rfl

/-- C8: when the reference spreadsheet is absent, or reading it throws, or its
processing throws (no usable sheet / no range), the column listing does not fail:
it returns the built-in phase-1 column name list. -/
theorem getCoaColumnsFromExcel_fallback :
    (∀ phase1Columns : List ColumnConfig,
       getCoaColumnsFromExcel .absent phase1Columns
         = phase1Columns.map (fun c => c.name)) ∧
    (∀ (e : String) (phase1Columns : List ColumnConfig),
       getCoaColumnsFromExcel (.present (.error e)) phase1Columns
         = phase1Columns.map (fun c => c.name)) ∧
    (∀ (wb : Workbook) (e : String) (phase1Columns : List ColumnConfig),
       readHeadersFromWorkbook wb = .error e →
       getCoaColumnsFromExcel (.present (.ok wb)) phase1Columns
         = phase1Columns.map (fun c => c.name)) := by
  refine ⟨fun _ => rfl, fun _ _ => rfl, ?_⟩
  intro wb e phase1Columns h
  show (match readHeadersFromWorkbook wb with
    | .ok headers => headers
    | .error _ => phase1Columns.map (fun c => c.name)) = phase1Columns.map (fun c => c.name)
  rw [h]

/-- C8 witness: a workbook whose preferred sheet has no `!ref` falls back to the
built-in phase-1 names. -/
theorem getCoaColumnsFromExcel_fallback_witness :
    getCoaColumnsFromExcel (.present (.ok ⟨[⟨"Database", none, []⟩]⟩))
        [⟨"AI"⟩, ⟨"AV"⟩] = ["AI", "AV"] :=
  getCoaColumnsFromExcel_fallback.2.2 ⟨[⟨"Database", none, []⟩]⟩
    "Worksheet has no range" [⟨"AI"⟩, ⟨"AV"⟩] rfl

theorem decChar_ne_dot (d : Nat) : decChar d ≠ '.' := by
  rcases d with _|_|_|_|_|_|_|_|_|d
  all_goals first
  | decide
  | (show ('9' : Char) ≠ '.'; decide)

theorem mem_natDigitsRevFuel (fuel : Nat) :
    ∀ n c, c ∈ natDigitsRevFuel fuel n → ∃ d, c = decChar d := by
  induction fuel with
  | zero => intro n c h; simp [natDigitsRevFuel] at h
  | succ fuel ih =>
    intro n c h
    cases n with
    | zero => simp [natDigitsRevFuel] at h
    | succ m =>
      simp only [natDigitsRevFuel, List.mem_cons] at h
      rcases h with h | h
      · exact ⟨(m + 1) % 10, h⟩
      · exact ih _ c h

theorem natReprChars_no_dot (n : Nat) : ∀ c ∈ natReprChars n, c ≠ '.' := by
  intro c hc
  unfold natReprChars at hc
  by_cases h : n = 0
  · rw [if_pos h] at hc
    simp at hc
    rw [hc]
    decide
  · rw [if_neg h] at hc
    rw [List.mem_reverse] at hc
    obtain ⟨d, hd⟩ := mem_natDigitsRevFuel n n c hc
    rw [hd]
    exact decChar_ne_dot d

theorem fracChars_length_le (fr : Nat) : (fracChars fr).length ≤ 2 := by
  unfold fracChars
  repeat' split
  all_goals simp

/-- C9: components `0.10` and `1.05` combine to exactly the string `"1.15"`, and
for all components the derived LPC string carries at most 2 decimal digits (no
floating-point artifact digits). -/
theorem lpcDerived_spec :
    lpcDerived (10 / 100) (105 / 100) = "1.15" ∧
    ∀ a b : ℚ, decimalPlaces (lpcDerived a b) ≤ 2 := by
  constructor
  · have h : roundToHundredths (10 / 100 + 105 / 100) = 115 := by
      unfold roundToHundredths
      rw [round_eq]
      norm_num
    unfold lpcDerived
    rw [h]
    rfl
  · intro a b
    unfold lpcDerived formatHundredths decimalPlaces
    simp only []
    set n := roundToHundredths (a + b) with hn
    set sign : List Char := if n < 0 then ['-'] else [] with hsign
    have hall : ∀ c ∈ sign ++ natReprChars (n.natAbs / 100), (!(c == '.')) = true := by
      intro c hc
      rw [List.mem_append] at hc
      rcases hc with hc | hc
      · rw [hsign] at hc
        by_cases hneg : n < 0
        · rw [if_pos hneg] at hc
          simp at hc
          rw [hc]
          decide
        · rw [if_neg hneg] at hc
          simp at hc
      · have := natReprChars_no_dot (n.natAbs / 100) c hc
        simp [this]
    rw [show (sign ++ natReprChars (n.natAbs / 100) ++
          (if fracChars (n.natAbs % 100) = [] then []
           else '.' :: fracChars (n.natAbs % 100)))
        = (sign ++ natReprChars (n.natAbs / 100)) ++
          (if fracChars (n.natAbs % 100) = [] then []
           else '.' :: fracChars (n.natAbs % 100)) from by
      rw [List.append_assoc]]
    rw [dropWhile_append_all _ _ _ hall]
    by_cases hfc : fracChars (n.natAbs % 100) = []
    · rw [if_pos hfc]
      simp
    · rw [if_neg hfc]
      rw [List.dropWhile_cons]
      simp only [show ((!('.' == '.')) = true) = False by decide, if_false]
      have := fracChars_length_le (n.natAbs % 100)
      simpa using this

theorem lookupG_addToGroups (gs : List (String × List Keyed)) (k : String) (v : Keyed)
    (k' : String) :
    lookupG (addToGroups gs k v) k' =
      if k = k' then lookupG gs k' ++ [v] else lookupG gs k' := by
  induction gs with
  | nil =>
    by_cases h : k = k'
    · simp [addToGroups, lookupG, h]
    · simp [addToGroups, lookupG, h]
  | cons e rest ih =>
    obtain ⟨k0, l0⟩ := e
    by_cases h0 : k0 = k
    · subst h0
      by_cases h : k0 = k'
      · simp [addToGroups, lookupG, h]
      · simp [addToGroups, lookupG, h]
    · by_cases h1 : k0 = k'
      · subst h1
        have hk : ¬ k = k0 := fun hh => h0 hh.symm
        simp [addToGroups, lookupG, h0, hk]
      · simp [addToGroups, lookupG, h0, h1, ih]

theorem keyedList_cons_none (r : CoaRecord) (rest : List CoaRecord)
    (hk : mkKeyed r = none) : keyedList (r :: rest) = keyedList rest := by
  simp [keyedList, List.filterMap_cons, hk]

theorem keyedList_cons_some (r : CoaRecord) (rest : List CoaRecord) (kr : Keyed)
    (hk : mkKeyed r = some kr) : keyedList (r :: rest) = kr :: keyedList rest := by
  simp [keyedList, List.filterMap_cons, hk]

theorem lookupG_buildGroups (records : List CoaRecord) :
    ∀ gs k, lookupG (buildGroups records gs) k
      = lookupG gs k ++ (keyedList records).filter (fun kr => kr.nKey == k) := by
  induction records with
  | nil => intro gs k; simp [buildGroups, keyedList]
  | cons r rest ih =>
    intro gs k
    show lookupG (match mkKeyed r with
      | none => buildGroups rest gs
      | some kr => buildGroups rest (addToGroups gs kr.nKey kr)) k = _
    cases hk : mkKeyed r with
    | none =>
      rw [ih, keyedList_cons_none r rest hk]
    | some kr =>
      rw [ih, lookupG_addToGroups, keyedList_cons_some r rest kr hk, List.filter_cons]
      by_cases h : kr.nKey = k
      · simp [h]
      · simp [h]

theorem keys_addToGroups (gs : List (String × List Keyed)) (k : String) (v : Keyed) :
    (addToGroups gs k v).map Prod.fst =
      if k ∈ gs.map Prod.fst then gs.map Prod.fst else gs.map Prod.fst ++ [k] := by
  induction gs with
  | nil => simp [addToGroups]
  | cons e rest ih =>
    obtain ⟨k0, l0⟩ := e
    by_cases h0 : k0 = k
    · subst h0
      simp [addToGroups]
    · have h0' : ¬ k = k0 := fun hh => h0 hh.symm
      by_cases hmem : k ∈ rest.map Prod.fst
      · simp [addToGroups, h0, ih, hmem, h0']
      · simp [addToGroups, h0, ih, hmem, h0']

theorem keysNodup_buildGroups (records : List CoaRecord) :
    ∀ gs, ((gs.map Prod.fst).Nodup) →
      (((buildGroups records gs).map Prod.fst).Nodup) := by
  induction records with
  | nil => intro gs h; exact h
  | cons r rest ih =>
    intro gs h
    show ((match mkKeyed r with
      | none => buildGroups rest gs
      | some kr => buildGroups rest (addToGroups gs kr.nKey kr)).map Prod.fst).Nodup
    cases hk : mkKeyed r with
    | none => exact ih gs h
    | some kr =>
      apply ih
      rw [keys_addToGroups]
      by_cases hmem : kr.nKey ∈ gs.map Prod.fst
      · simp only [hmem, if_true]
        exact h
      · simp only [hmem, if_false]
        simp [List.nodup_append, h, hmem]

theorem lookupG_of_mem (gs : List (String × List Keyed)) (k : String) (l : List Keyed)
    (hnd : (gs.map Prod.fst).Nodup) (he : (k, l) ∈ gs) : lookupG gs k = l := by
  induction gs with
  | nil => simp at he
  | cons e rest ih =>
    obtain ⟨k0, l0⟩ := e
    simp only [List.map_cons, List.nodup_cons] at hnd
    rcases List.mem_cons.mp he with h | h
    · obtain ⟨hk, hl⟩ := Prod.mk.injEq .. ▸ h
      · show (if k0 = k then l0 else lookupG rest k) = l
        rw [if_pos, hl]
        · exact hk.symm
    · have hkmem : k ∈ rest.map Prod.fst := by
        exact List.mem_map.mpr ⟨(k, l), h, rfl⟩
      have hne : k0 ≠ k := by
        intro hh
        rw [hh] at hnd
        exact hnd.1 hkmem
      show (if k0 = k then l0 else lookupG rest k) = l
      rw [if_neg hne]
      exact ih hnd.2 h

/-- Every entry of the built groups object holds exactly the keyed records of its
key, in record order. -/
theorem mem_buildGroups_eq_groupOf (records : List CoaRecord) (k : String)
    (l : List Keyed) (he : (k, l) ∈ buildGroups records []) :
    l = groupOf records k := by
  have hnd : ((buildGroups records []).map Prod.fst).Nodup :=
    keysNodup_buildGroups records [] (by simp)
  have h1 : lookupG (buildGroups records []) k = l := lookupG_of_mem _ k l hnd he
  have h2 := lookupG_buildGroups records [] k
  rw [h1] at h2
  simpa [groupOf, lookupG] using h2

theorem mkKeyed_row (r : CoaRecord) (kr : Keyed) (h : mkKeyed r = some kr) :
    kr.row = r := by
  unfold mkKeyed at h
  simp only [] at h
  repeat' split at h
  all_goals first
  | exact Option.noConfusion h
  | (injection h with h2; rw [← h2])

theorem keyedList_row_sublist (records : List CoaRecord) :
    (((keyedList records).map (fun kr => kr.row))).Sublist records := by
  induction records with
  | nil => simp [keyedList]
  | cons r rest ih =>
    cases hk : mkKeyed r with
    | none =>
      rw [keyedList_cons_none r rest hk]
      exact ih.cons r
    | some kr =>
      rw [keyedList_cons_some r rest kr hk, List.map_cons, mkKeyed_row r kr hk]
      exact ih.cons₂ r

theorem mem_keyedList_iff (records : List CoaRecord) (kr : Keyed) :
    kr ∈ keyedList records ↔ ∃ r ∈ records, mkKeyed r = some kr := by
  unfold keyedList
  rw [List.mem_filterMap]

theorem mem_keyedList_row_mem (records : List CoaRecord) (kr : Keyed)
    (h : kr ∈ keyedList records) : kr.row ∈ records := by
  have := List.Sublist.subset (keyedList_row_sublist records)
  exact this (List.mem_map.mpr ⟨kr, h, rfl⟩)

theorem groupOf_sublist_keyedList (records : List CoaRecord) (k : String) :
    (groupOf records k).Sublist (keyedList records) := List.filter_sublist _

theorem mem_groupOf_nKey (records : List CoaRecord) (k : String) (kr : Keyed)
    (h : kr ∈ groupOf records k) : kr.nKey = k := by
  unfold groupOf at h
  rw [List.mem_filter] at h
  simpa using h.2

theorem groupOf_row_sublist (records : List CoaRecord) (k : String) :
    ((groupOf records k).map (fun kr => kr.row)).Sublist records :=
  ((groupOf_sublist_keyedList records k).map _).trans (keyedList_row_sublist records)

theorem groupOf_sorted (records : List CoaRecord) (k : String)
    (hsort : records.Pairwise (fun a b => a.createdAt < b.createdAt)) :
    (groupOf records k).Pairwise (fun a b => a.row.createdAt < b.row.createdAt) := by
  have h1 := hsort.sublist (groupOf_row_sublist records k)
  exact List.Pairwise.of_map (fun kr => kr.row) (fun a b h => h) h1

theorem ids_ne_of_mem_ne (records : List CoaRecord)
    (hnid : (records.map (fun r => r.id)).Nodup) (a b : CoaRecord)
    (ha : a ∈ records) (hb : b ∈ records) (hne : a ≠ b) : a.id ≠ b.id := by
  have hp : records.Pairwise (fun x y => x.id ≠ y.id) := by
    have := (List.pairwise_map).mp hnid
    exact this
  have hsymm : Symmetric (fun x y : CoaRecord => x.id ≠ y.id) := by
    intro x y h hh
    exact h hh.symm
  exact hp.forall hsymm ha hb hne

theorem keyedList_pairwise_ne_id (records : List CoaRecord)
    (hnid : (records.map (fun r => r.id)).Nodup) :
    (keyedList records).Pairwise (fun a b => a.row.id ≠ b.row.id) := by
  have hsub : (((keyedList records).map (fun kr => kr.row)).map (fun r => r.id)).Sublist
      (records.map (fun r => r.id)) := (keyedList_row_sublist records).map _
  have hnd2 := hnid.sublist hsub
  rw [List.map_map] at hnd2
  exact (List.pairwise_map).mp hnd2

theorem keyed_ids_ne (records : List CoaRecord)
    (hnid : (records.map (fun r => r.id)).Nodup) (a b : Keyed)
    (ha : a ∈ keyedList records) (hb : b ∈ keyedList records) (hne : a ≠ b) :
    a.row.id ≠ b.row.id := by
  have hp := keyedList_pairwise_ne_id records hnid
  have hsymm : Symmetric (fun x y : Keyed => x.row.id ≠ y.row.id) := by
    intro x y h hh
    exact h hh.symm
  exact hp.forall hsymm ha hb hne

theorem applyMergedData_id (md : MergedData) (r : CoaRecord) :
    (applyMergedData md r).id = r.id := rfl

theorem mem_updateById_of_ne (store : List CoaRecord) (i : Nat)
    (f : CoaRecord → CoaRecord) (r : CoaRecord) (hr : r ∈ store) (hne : r.id ≠ i) :
    r ∈ updateById store i f :=
  List.mem_map.mpr ⟨r, hr, if_neg hne⟩

theorem mem_deleteById_of_ne (store : List CoaRecord) (i : Nat) (r : CoaRecord)
    (hr : r ∈ store) (hne : r.id ≠ i) : r ∈ deleteById store i := by
  unfold deleteById
  rw [List.mem_filter]
  exact ⟨hr, by simp [hne]⟩

theorem mem_deleteById_mem (store : List CoaRecord) (i : Nat) (r : CoaRecord)
    (hr : r ∈ deleteById store i) : r ∈ store :=
  (List.mem_filter.mp hr).1

theorem deleteById_id_ne (store : List CoaRecord) (i : Nat) (r : CoaRecord)
    (hr : r ∈ deleteById store i) : r.id ≠ i := by
  have := (List.mem_filter.mp hr).2
  simpa using this

theorem mem_deleteFold_of_ne (dups : List Keyed) (s : List CoaRecord) (r : CoaRecord)
    (hr : r ∈ s) (hne : ∀ d ∈ dups, r.id ≠ d.row.id) :
    r ∈ dups.foldl (fun s d => deleteById s d.row.id) s := by
  induction dups generalizing s with
  | nil => exact hr
  | cons d rest ih =>
    exact ih _ (mem_deleteById_of_ne s d.row.id r hr (hne d (List.mem_cons_self d rest)))
      (fun d' hd' => hne d' (List.mem_cons_of_mem d hd'))

theorem mem_deleteFold_mem (dups : List Keyed) (s : List CoaRecord) (r : CoaRecord)
    (hr : r ∈ dups.foldl (fun s d => deleteById s d.row.id) s) : r ∈ s := by
  induction dups generalizing s with
  | nil => exact hr
  | cons d rest ih => exact mem_deleteById_mem _ _ _ (ih _ hr)

theorem not_mem_deleteFold (dups : List Keyed) (d : Keyed) (hd : d ∈ dups) :
    ∀ (s : List CoaRecord) (r' : CoaRecord),
      r' ∈ dups.foldl (fun s x => deleteById s x.row.id) s → r'.id ≠ d.row.id := by
  induction dups with
  | nil => simp at hd
  | cons x rest ih =>
    intro s r' hr'
    rcases List.mem_cons.mp hd with h | h
    · subst h
      exact deleteById_id_ne s d.row.id r' (mem_deleteFold_mem rest _ r' hr')
    · exact ih h _ _ hr'

theorem mem_processGroup_of_ne (s : List CoaRecord) (g : List Keyed) (r : CoaRecord)
    (hr : r ∈ s) (hne : ∀ kr ∈ g, r.id ≠ kr.row.id) : r ∈ processGroup s g := by
  match g with
  | [] => exact hr
  | master :: dups =>
    show r ∈ (if dups = [] then s else _)
    by_cases hd : dups = []
    · rw [if_pos hd]; exact hr
    · rw [if_neg hd]
      apply mem_deleteFold_of_ne
      · by_cases hdirty : (buildMergedData master (master :: dups)).dirty = true
        · rw [if_pos hdirty]
          exact mem_updateById_of_ne s master.row.id _ r hr
            (hne master (List.mem_cons_self master dups))
        · rw [if_neg hdirty]
          exact hr
      · intro d hdm
        exact hne d (List.mem_cons_of_mem master hdm)

theorem processGroup_short (s : List CoaRecord) (g : List Keyed) (h : g.length ≤ 1) :
    processGroup s g = s := by
  match g with
  | [] => rfl
  | [m] => rfl
  | m :: d :: rest => simp at h

theorem processGroups_append (s : List CoaRecord) (xs ys : List (String × List Keyed)) :
    processGroups s (xs ++ ys) = processGroups (processGroups s xs) ys := by
  induction xs generalizing s with
  | nil => rfl
  | cons e rest ih =>
    obtain ⟨k, g⟩ := e
    exact ih (processGroup s g)

theorem mem_processGroups_of (gs : List (String × List Keyed)) (s : List CoaRecord)
    (r : CoaRecord) (hr : r ∈ s)
    (hcond : ∀ e ∈ gs, e.2.length ≤ 1 ∨ ∀ kr ∈ e.2, r.id ≠ kr.row.id) :
    r ∈ processGroups s gs := by
  induction gs generalizing s with
  | nil => exact hr
  | cons e rest ih =>
    obtain ⟨k, g⟩ := e
    show r ∈ processGroups (processGroup s g) rest
    rcases hcond (k, g) (List.mem_cons_self _ rest) with hshort | hne
    · rw [processGroup_short s g hshort]
      exact ih s hr (fun e' he' => hcond e' (List.mem_cons_of_mem _ he'))
    · exact ih _ (mem_processGroup_of_ne s g r hr hne)
        (fun e' he' => hcond e' (List.mem_cons_of_mem _ he'))

theorem processGroup_id_provenance (s : List CoaRecord) (g : List Keyed)
    (r' : CoaRecord) (h : r' ∈ processGroup s g) : ∃ r ∈ s, r'.id = r.id := by
  match g with
  | [] => exact ⟨r', h, rfl⟩
  | master :: dups =>
    rw [processGroup] at h
    by_cases hd : dups = []
    · rw [if_pos hd] at h
      exact ⟨r', h, rfl⟩
    · rw [if_neg hd] at h
      have h1 := mem_deleteFold_mem dups _ r' h
      by_cases hdirty : (buildMergedData master (master :: dups)).dirty = true
      · rw [if_pos hdirty] at h1
        obtain ⟨r, hr, heq⟩ := List.mem_map.mp h1
        by_cases hid : r.id = master.row.id
        · rw [if_pos hid] at heq
          exact ⟨r, hr, by rw [← heq, applyMergedData_id]⟩
        · rw [if_neg hid] at heq
          exact ⟨r, hr, by rw [← heq]⟩
      · rw [if_neg hdirty] at h1
        exact ⟨r', h1, rfl⟩

theorem processGroups_id_provenance (gs : List (String × List Keyed))
    (s : List CoaRecord) (r' : CoaRecord) (h : r' ∈ processGroups s gs) :
    ∃ r ∈ s, r'.id = r.id := by
  induction gs generalizing s with
  | nil => exact ⟨r', h, rfl⟩
  | cons e rest ih =>
    obtain ⟨k, g⟩ := e
    obtain ⟨r1, hr1, heq1⟩ := ih (processGroup s g) h
    obtain ⟨r0, hr0, heq0⟩ := processGroup_id_provenance s g r1 hr1
    exact ⟨r0, hr0, heq1.trans heq0⟩

theorem not_mem_processGroups_id (gs : List (String × List Keyed))
    (s : List CoaRecord) (i : Nat) (h : ∀ r ∈ s, r.id ≠ i) :
    ∀ r' ∈ processGroups s gs, r'.id ≠ i := by
  intro r' hr'
  obtain ⟨r, hr, heq⟩ := processGroups_id_provenance gs s r' hr'
  rw [heq]
  exact h r hr

theorem setMergedData_dirty (md : MergedData) (k : String) (v : Option String) :
    (setMergedData md k v).dirty = true := by
  unfold setMergedData
  repeat' split
  all_goals rfl

theorem mergeEntryStep_eq_or_dirty (master : Keyed) (created : Nat) (md : MergedData)
    (kv : String × Option String) :
    mergeEntryStep master created md kv = md ∨
      (mergeEntryStep master created md kv).dirty = true := by
  unfold mergeEntryStep
  split
  · left; rfl
  · split
    · right; exact setMergedData_dirty md kv.1 kv.2
    · left; rfl

theorem setMergedData_preserves_dirty (md : MergedData) (k : String) (v : Option String)
    (_h : md.dirty = true) : (setMergedData md k v).dirty = true :=
  setMergedData_dirty md k v

theorem mergeEntryStep_preserves_dirty (master : Keyed) (created : Nat)
    (md : MergedData) (kv : String × Option String) (h : md.dirty = true) :
    (mergeEntryStep master created md kv).dirty = true := by
  unfold mergeEntryStep
  split
  · exact h
  · split
    · exact setMergedData_dirty md kv.1 kv.2
    · exact h

theorem foldl_preserves_dirty {α : Type} (f : MergedData → α → MergedData)
    (hpres : ∀ md x, md.dirty = true → (f md x).dirty = true) (l : List α) :
    ∀ md, md.dirty = true → (l.foldl f md).dirty = true := by
  induction l with
  | nil => intro md h; exact h
  | cons x rest ih => intro md h; exact ih (f md x) (hpres md x h)

theorem foldl_eq_of_not_dirty {α : Type} (f : MergedData → α → MergedData)
    (hstep : ∀ md x, (f md x).dirty = false → f md x = md)
    (hpres : ∀ md x, md.dirty = true → (f md x).dirty = true)
    (l : List α) (md : MergedData) (h : (l.foldl f md).dirty = false) :
    l.foldl f md = md := by
  induction l generalizing md with
  | nil => rfl
  | cons x rest ih =>
    by_cases hd : (f md x).dirty = true
    · have := foldl_preserves_dirty f hpres rest (f md x) hd
      rw [List.foldl_cons] at h
      rw [h] at this
      simp at this
    · have hd' : (f md x).dirty = false := by
        cases hh : (f md x).dirty
        · rfl
        · exact absurd hh hd
      have hfx : f md x = md := hstep md x hd'
      rw [List.foldl_cons, hfx] at h ⊢
      exact ih md h

theorem mergeEntryStep_eq_of_not_dirty (master : Keyed) (created : Nat)
    (md : MergedData) (kv : String × Option String)
    (h : (mergeEntryStep master created md kv).dirty = false) :
    mergeEntryStep master created md kv = md := by
  rcases mergeEntryStep_eq_or_dirty master created md kv with heq | hd
  · exact heq
  · rw [h] at hd; simp at hd

theorem mergeRecStep_preserves_dirty (master : Keyed) (md : MergedData) (kr : Keyed)
    (h : md.dirty = true) : (mergeRecStep master md kr).dirty = true :=
  foldl_preserves_dirty _ (mergeEntryStep_preserves_dirty master kr.row.createdAt) _ md h

theorem mergeRecStep_eq_of_not_dirty (master : Keyed) (md : MergedData) (kr : Keyed)
    (h : (mergeRecStep master md kr).dirty = false) : mergeRecStep master md kr = md :=
  foldl_eq_of_not_dirty _ (mergeEntryStep_eq_of_not_dirty master kr.row.createdAt)
    (mergeEntryStep_preserves_dirty master kr.row.createdAt) _ md h

theorem buildMergedData_eq_fold (master : Keyed) (g : List Keyed) :
    buildMergedData master g = g.foldl (mergeRecStep master) (preMerged master) := rfl

theorem preMerged_dirty_or_empty (master : Keyed) :
    preMerged master = emptyMergedData ∨ (preMerged master).dirty = true := by
  unfold preMerged
  by_cases h1 : isEmptyVal master.row.sampleId = true
  all_goals by_cases h2 : isEmptyVal master.row.batchId = true
  all_goals simp [h1, h2]

theorem applyMergedData_empty (r : CoaRecord) :
    applyMergedData emptyMergedData r = r := rfl

theorem buildMergedData_of_not_dirty (master : Keyed) (g : List Keyed)
    (h : (buildMergedData master g).dirty = false) :
    buildMergedData master g = emptyMergedData := by
  rw [buildMergedData_eq_fold] at h ⊢
  rcases preMerged_dirty_or_empty master with he | hd
  · rw [he] at h ⊢
    exact foldl_eq_of_not_dirty _ (mergeRecStep_eq_of_not_dirty master)
      (fun md x => mergeRecStep_preserves_dirty master md x) g _ h
  · have := foldl_preserves_dirty (mergeRecStep master)
      (fun md x => mergeRecStep_preserves_dirty master md x) g _ hd
    rw [h] at this
    simp at this

theorem assocGet_of_mem_nodup {β : Type} (l : List (String × β)) (k : String) (v : β)
    (hnd : (l.map Prod.fst).Nodup) (h : (k, v) ∈ l) : assocGet l k = some v := by
  induction l with
  | nil => simp at h
  | cons kv rest ih =>
    obtain ⟨k0, v0⟩ := kv
    simp only [List.map_cons, List.nodup_cons] at hnd
    rcases List.mem_cons.mp h with h1 | h1
    · obtain ⟨hk, hv⟩ := Prod.mk.injEq .. ▸ h1
      show (if k0 = k then some v0 else assocGet rest k) = some v
      rw [if_pos hk.symm, hv]
    · have hkmem : k ∈ rest.map Prod.fst := List.mem_map.mpr ⟨(k, v), h1, rfl⟩
      have hne : k0 ≠ k := fun hh => hnd.1 (hh ▸ hkmem)
      show (if k0 = k then some v0 else assocGet rest k) = some v
      rw [if_neg hne]
      exact ih hnd.2 h1

theorem mergeEntryStep_fields_fileName (master : Keyed) (c : Nat) (md : MergedData)
    (v : Option String) :
    (mergeEntryStep master c md ("fileName", v)).fields = md.fields := by
  unfold mergeEntryStep setMergedData
  repeat' split
  all_goals first
  | rfl
  | simp_all

theorem mergeEntryStep_fields_sampleId (master : Keyed) (c : Nat) (md : MergedData)
    (v : Option String) :
    (mergeEntryStep master c md ("sampleId", v)).fields = md.fields := by
  unfold mergeEntryStep setMergedData
  repeat' split
  all_goals first
  | rfl
  | simp_all

theorem mergeEntryStep_fields_batchId (master : Keyed) (c : Nat) (md : MergedData)
    (v : Option String) :
    (mergeEntryStep master c md ("batchId", v)).fields = md.fields := by
  unfold mergeEntryStep setMergedData
  repeat' split
  all_goals first
  | rfl
  | simp_all

/-- On entries of non-dedicated keys from a strictly newer record, the collection
fold acts on the `fields` map exactly like the upsert's `updateData` application. -/
theorem fold_fields_sim (master : Keyed) (c : Nat)
    (hlt : master.row.createdAt < c) (entries : List (String × Option String))
    (hns : ∀ kv ∈ entries,
      kv.1 ≠ "fileName" ∧ kv.1 ≠ "sampleId" ∧ kv.1 ≠ "batchId") :
    ∀ md : MergedData,
      (entries.foldl (mergeEntryStep master c) md).fields
        = applyFieldAssignments md.fields entries := by
  induction entries with
  | nil => intro md; rfl
  | cons kv rest ih =>
    intro md
    obtain ⟨hk1, hk2, hk3⟩ := hns kv (List.mem_cons_self kv rest)
    have hrest : ∀ kv' ∈ rest,
        kv'.1 ≠ "fileName" ∧ kv'.1 ≠ "sampleId" ∧ kv'.1 ≠ "batchId" :=
      fun kv' h => hns kv' (List.mem_cons_of_mem kv h)
    rw [List.foldl_cons]
    rw [ih hrest]
    by_cases he : isEmptyVal kv.2 = true
    · have hstep : mergeEntryStep master c md kv = md := by
        unfold mergeEntryStep
        rw [if_pos he]
      rw [hstep]
      show applyFieldAssignments md.fields rest
        = applyFieldAssignments md.fields (kv :: rest)
      unfold applyFieldAssignments
      simp [he]
    · have hcond : (isEmptyVal (recVal master.row kv.1)
          || decide (master.row.createdAt < c)) = true := by
        simp [hlt]
      have hstep : mergeEntryStep master c md kv = setMergedData md kv.1 kv.2 := by
        unfold mergeEntryStep
        rw [if_neg he, if_pos]
        simpa using hcond
      have hset : (setMergedData md kv.1 kv.2).fields = assocSet md.fields kv.1 kv.2 := by
        unfold setMergedData
        rw [if_neg hk1, if_neg hk2, if_neg hk3]
      rw [hstep, hset]
      show applyFieldAssignments (assocSet md.fields kv.1 kv.2) rest
        = applyFieldAssignments md.fields (kv :: rest)
      unfold applyFieldAssignments
      simp [he]

/-- A record never re-contributes its own field values to `mergedData`. -/
theorem master_selfFold_noop (master : Keyed) (hwfM : recordWF master.row) :
    ∀ (entries : List (String × Option String)),
      (∀ kv ∈ entries, kv ∈ master.row.fields) →
      ∀ md, entries.foldl (mergeEntryStep master master.row.createdAt) md = md := by
  intro entries
  induction entries with
  | nil => intro _ md; rfl
  | cons kv rest ih =>
    intro hmem md
    have hkv : kv ∈ master.row.fields := hmem kv (List.mem_cons_self kv rest)
    have hkey : kv.1 ∈ master.row.fields.map Prod.fst :=
      List.mem_map.mpr ⟨kv, hkv, rfl⟩
    obtain ⟨hk1, hk2, hk3⟩ := hwfM.2 kv.1 hkey
    have hget : assocGet master.row.fields kv.1 = some kv.2 :=
      assocGet_of_mem_nodup master.row.fields kv.1 kv.2 hwfM.1 hkv
    have hrecval : recVal master.row kv.1 = kv.2 := by
      unfold recVal
      rw [if_neg hk1, if_neg hk2, if_neg hk3]
      unfold fieldVal
      rw [hget]
      rfl
    have hstep : mergeEntryStep master master.row.createdAt md kv = md := by
      unfold mergeEntryStep
      by_cases he : isEmptyVal kv.2 = true
      · rw [if_pos he]
      · rw [if_neg he, if_neg]
        simp only [hrecval]
        simp [he]
    rw [List.foldl_cons, hstep]
    exact ih (fun kv' h => hmem kv' (List.mem_cons_of_mem kv h)) md

theorem mergeRecStep_self_fields (master : Keyed) (hwfM : recordWF master.row)
    (md : MergedData) : (mergeRecStep master md master).fields = md.fields := by
  unfold mergeRecStep entriesOf
  rw [List.foldl_cons, List.foldl_cons, List.foldl_cons]
  rw [master_selfFold_noop master hwfM master.row.fields (fun kv h => h)]
  rw [mergeEntryStep_fields_batchId, mergeEntryStep_fields_sampleId,
    mergeEntryStep_fields_fileName]

theorem mergeRecStep_fields (master kr : Keyed) (hwf : recordWF kr.row)
    (hlt : master.row.createdAt < kr.row.createdAt) (md : MergedData) :
    (mergeRecStep master md kr).fields
      = applyFieldAssignments md.fields kr.row.fields := by
  unfold mergeRecStep entriesOf
  rw [List.foldl_cons, List.foldl_cons, List.foldl_cons]
  rw [fold_fields_sim master kr.row.createdAt hlt kr.row.fields
    (fun kv h => hwf.2 kv.1 (List.mem_map.mpr ⟨kv, h, rfl⟩))]
  congr 1
  rw [mergeEntryStep_fields_batchId, mergeEntryStep_fields_sampleId,
    mergeEntryStep_fields_fileName]

theorem dupsFold_fields_get (master : Keyed) (dups : List Keyed)
    (hconds : ∀ d ∈ dups, recordWF d.row ∧ master.row.createdAt < d.row.createdAt)
    (k : String) :
    ∀ md0 : MergedData,
      assocGet ((dups.foldl (mergeRecStep master) md0).fields) k
        = latestAssigned (dups.map (fun d => fieldVal d.row.fields k))
            (assocGet md0.fields k) := by
  induction dups with
  | nil => intro md0; rfl
  | cons d rest ih =>
    intro md0
    obtain ⟨hwf, hlt⟩ := hconds d (List.mem_cons_self d rest)
    have hrest : ∀ d' ∈ rest, recordWF d'.row ∧
        master.row.createdAt < d'.row.createdAt :=
      fun d' h => hconds d' (List.mem_cons_of_mem d h)
    rw [List.foldl_cons, ih hrest]
    have hstepfields : assocGet (mergeRecStep master md0 d).fields k
        = if isEmptyVal (fieldVal d.row.fields k) then assocGet md0.fields k
          else some (fieldVal d.row.fields k) := by
      rw [mergeRecStep_fields master d hwf hlt md0]
      rw [applyFA_get d.row.fields hwf.1 md0.fields k]
      cases hg : assocGet d.row.fields k with
      | none =>
        have hfv : fieldVal d.row.fields k = none := by
          unfold fieldVal
          rw [hg]
          rfl
        rw [hfv]
        rfl
      | some v =>
        have hfv : fieldVal d.row.fields k = v := by
          unfold fieldVal
          rw [hg]
          rfl
        rw [hfv]
    rw [hstepfields]
    show latestAssigned (rest.map (fun d => fieldVal d.row.fields k)) _
      = latestAssigned (fieldVal d.row.fields k :: rest.map (fun d => fieldVal d.row.fields k)) _
    unfold latestAssigned
    rw [List.foldl_cons]

theorem latestAssigned_lastWins (vs : List (Option String)) :
    ∀ (acc : Option (Option String)) (d : Option String),
      (match latestAssigned vs acc with
       | some v => v
       | none => d)
        = lastWins vs (match acc with | some v => v | none => d) := by
  induction vs with
  | nil => intro acc d; cases acc <;> rfl
  | cons v rest ih =>
    intro acc d
    show (match latestAssigned rest (if isEmptyVal v then acc else some v) with
      | some w => w
      | none => d) = _
    rw [ih (if isEmptyVal v then acc else some v) d]
    show lastWins rest _ = lastWins rest (if isEmptyVal v
      then (match acc with | some w => w | none => d) else v)
    congr 1
    by_cases he : isEmptyVal v = true
    · rw [if_pos he, if_pos he]
    · rw [if_neg he, if_neg he]

theorem assocGet_setFold (upd : List (String × Option String))
    (hnd : (upd.map Prod.fst).Nodup) (base : List (String × Option String))
    (k : String) :
    assocGet (upd.foldl (fun acc kv => assocSet acc kv.1 kv.2) base) k =
      match assocGet upd k with
      | some v => some v
      | none => assocGet base k := by
  induction upd generalizing base with
  | nil => rfl
  | cons kv rest ih =>
    obtain ⟨k0, v0⟩ := kv
    simp only [List.map_cons, List.nodup_cons] at hnd
    rw [List.foldl_cons]
    rw [ih hnd.2]
    by_cases hk : k0 = k
    · subst hk
      have hnotmem : ∀ v, assocGet rest k0 ≠ some v → True := fun _ _ => trivial
      have hget0 : assocGet rest k0 = none := by
        cases hg : assocGet rest k0 with
        | none => rfl
        | some v =>
          exfalso
          apply hnd.1
          clear hnotmem ih hnd
          induction rest with
          | nil => simp [assocGet] at hg
          | cons kv2 rest2 ih2 =>
            obtain ⟨k2, v2⟩ := kv2
            by_cases h2 : k2 = k0
            · exact List.mem_map.mpr ⟨(k2, v2), List.mem_cons_self _ _, h2⟩
            · show k0 ∈ k2 :: rest2.map Prod.fst
              right
              apply ih2
              show assocGet rest2 k0 = some v
              have : assocGet ((k2, v2) :: rest2) k0 = assocGet rest2 k0 := by
                show (if k2 = k0 then some v2 else assocGet rest2 k0) = _
                rw [if_neg h2]
              rw [← this]
              exact hg
      rw [hget0]
      show assocGet (assocSet base k0 v0) k0
        = match assocGet ((k0, v0) :: rest) k0 with
          | some v => some v
          | none => assocGet base k0
      rw [assocGet_assocSet_same]
      show some v0 = match (if k0 = k0 then some v0 else assocGet rest k0) with
        | some v => some v
        | none => assocGet base k0
      rw [if_pos rfl]
    · have hskip : assocGet ((k0, v0) :: rest) k = assocGet rest k := by
        show (if k0 = k then some v0 else assocGet rest k) = _
        rw [if_neg hk]
      rw [hskip]
      have hbase : assocGet (assocSet base k0 v0) k = assocGet base k :=
        assocGet_assocSet_ne base k0 k v0 (fun hh => hk hh.symm)
      cases hr : assocGet rest k with
      | none => rw [hbase]
      | some v => rfl

theorem preMerged_fields (master : Keyed) : (preMerged master).fields = [] := by
  unfold preMerged
  by_cases h1 : isEmptyVal master.row.sampleId = true
  all_goals by_cases h2 : isEmptyVal master.row.batchId = true
  all_goals simp [h1, h2, emptyMergedData]

theorem setMergedData_fields_nodup (md : MergedData) (k : String) (v : Option String)
    (h : (md.fields.map Prod.fst).Nodup) :
    ((setMergedData md k v).fields.map Prod.fst).Nodup := by
  unfold setMergedData
  repeat' split
  all_goals try exact h
  -- the remaining branch replaced fields with assocSet
  show ((assocSet md.fields k v).map Prod.fst).Nodup
  have hkeys : (assocSet md.fields k v).map Prod.fst =
      if k ∈ md.fields.map Prod.fst then md.fields.map Prod.fst
      else md.fields.map Prod.fst ++ [k] := by
    clear h
    induction md.fields with
    | nil => simp [assocSet]
    | cons kv rest ih =>
      obtain ⟨k0, v0⟩ := kv
      by_cases h0 : k0 = k
      · subst h0
        simp [assocSet]
      · have h0' : ¬ k = k0 := fun hh => h0 hh.symm
        by_cases hm : k ∈ rest.map Prod.fst
        · simp [assocSet, h0, ih, hm, h0']
        · simp [assocSet, h0, ih, hm, h0']
  rw [hkeys]
  by_cases hm : k ∈ md.fields.map Prod.fst
  · rw [if_pos hm]; exact h
  · rw [if_neg hm]
    simp [List.nodup_append, h, hm]

theorem mergeEntryStep_fields_nodup (master : Keyed) (c : Nat) (md : MergedData)
    (kv : String × Option String) (h : (md.fields.map Prod.fst).Nodup) :
    ((mergeEntryStep master c md kv).fields.map Prod.fst).Nodup := by
  unfold mergeEntryStep
  split
  · exact h
  · split
    · exact setMergedData_fields_nodup md kv.1 kv.2 h
    · exact h

theorem foldl_fields_nodup {α : Type} (f : MergedData → α → MergedData)
    (hstep : ∀ md x, (md.fields.map Prod.fst).Nodup →
      ((f md x).fields.map Prod.fst).Nodup)
    (l : List α) : ∀ md, (md.fields.map Prod.fst).Nodup →
      ((l.foldl f md).fields.map Prod.fst).Nodup := by
  induction l with
  | nil => intro md h; exact h
  | cons x rest ih => intro md h; exact ih (f md x) (hstep md x h)

theorem buildMergedData_fields_nodup (master : Keyed) (g : List Keyed) :
    ((buildMergedData master g).fields.map Prod.fst).Nodup := by
  rw [buildMergedData_eq_fold]
  apply foldl_fields_nodup
  · intro md kr h
    exact foldl_fields_nodup _ (mergeEntryStep_fields_nodup master kr.row.createdAt) _ md h
  · rw [preMerged_fields]
    simp

/-- The merged master record's field at a non-dedicated key: the most recently
created duplicate's non-empty value wins; when no duplicate carries a non-empty
value the master keeps its own. -/
theorem merged_field_char (master : Keyed) (dups : List Keyed)
    (hwfM : recordWF master.row)
    (hconds : ∀ d ∈ dups, recordWF d.row ∧ master.row.createdAt < d.row.createdAt)
    (k : String) :
    fieldVal (applyMergedData (buildMergedData master (master :: dups))
        master.row).fields k
      = lastWins (dups.map (fun d => fieldVal d.row.fields k))
          (fieldVal master.row.fields k) := by
  have happly : (applyMergedData (buildMergedData master (master :: dups))
      master.row).fields
      = (buildMergedData master (master :: dups)).fields.foldl
          (fun acc kv => assocSet acc kv.1 kv.2) master.row.fields := rfl
  have hnd : (((buildMergedData master (master :: dups)).fields).map Prod.fst).Nodup :=
    buildMergedData_fields_nodup master (master :: dups)
  have hbuild : (buildMergedData master (master :: dups)).fields
      = (dups.foldl (mergeRecStep master) (mergeRecStep master (preMerged master)
          master)).fields := by
    rw [buildMergedData_eq_fold]
    rw [List.foldl_cons]
  have hmd0 : assocGet (mergeRecStep master (preMerged master) master).fields k
      = none := by
    rw [mergeRecStep_self_fields master hwfM, preMerged_fields]
    rfl
  have hget := dupsFold_fields_get master dups hconds k
    (mergeRecStep master (preMerged master) master)
  rw [hmd0] at hget
  show (assocGet (applyMergedData (buildMergedData master (master :: dups))
      master.row).fields k).join = _
  rw [happly, assocGet_setFold _ hnd master.row.fields k, hbuild, hget]
  have hbridge := latestAssigned_lastWins
    (dups.map (fun d => fieldVal d.row.fields k)) none (fieldVal master.row.fields k)
  cases hl : latestAssigned (dups.map (fun d => fieldVal d.row.fields k)) none with
  | none =>
    rw [hl] at hbridge
    exact hbridge
  | some v =>
    rw [hl] at hbridge
    exact hbridge

theorem keyedList_ids_nodup (records : List CoaRecord)
    (hnid : (records.map (fun r => r.id)).Nodup) :
    ((keyedList records).map (fun kr => kr.row.id)).Nodup := by
  have h2 : ((keyedList records).map (fun kr => kr.row.id)).Sublist
      (records.map (fun r => r.id)) := by
    have := (keyedList_row_sublist records).map (fun r => r.id)
    simpa [List.map_map] using this
  exact hnid.sublist h2

theorem mem_of_lookupG_ne (gs : List (String × List Keyed)) (k : String)
    (h : lookupG gs k ≠ []) : (k, lookupG gs k) ∈ gs := by
  induction gs with
  | nil => exact absurd rfl h
  | cons e rest ih =>
    obtain ⟨k0, l0⟩ := e
    by_cases hk : k0 = k
    · subst hk
      have heq : lookupG ((k0, l0) :: rest) k0 = l0 := by
        show (if k0 = k0 then l0 else lookupG rest k0) = l0
        rw [if_pos rfl]
      rw [heq]
      exact List.mem_cons_self _ _
    · have hl : lookupG ((k0, l0) :: rest) k = lookupG rest k := by
        show (if k0 = k then l0 else lookupG rest k) = lookupG rest k
        rw [if_neg hk]
      rw [hl] at h ⊢
      exact List.mem_cons_of_mem _ (ih h)

theorem processGroup_cons_ne (s : List CoaRecord) (master : Keyed)
    (dups : List Keyed) (h : dups ≠ []) :
    processGroup s (master :: dups) =
      dups.foldl (fun s d => deleteById s d.row.id)
        (if (buildMergedData master (master :: dups)).dirty
         then updateById s master.row.id
           (applyMergedData (buildMergedData master (master :: dups)))
         else s) := by
  have heq : processGroup s (master :: dups) =
      (if dups = [] then s
       else
         dups.foldl (fun s d => deleteById s d.row.id)
           (if (buildMergedData master (master :: dups)).dirty
            then updateById s master.row.id
              (applyMergedData (buildMergedData master (master :: dups)))
            else s)) := rfl
  rw [heq, if_neg h]

/-- C6 (amended): the cleanup groups a user's records (fetched in `createdAt`
ascending order) by the concatenated string `normalizedSampleId + "||" +
normalizedBatchId` — conflating distinct (sample, batch) pairs whose IDs contain
`"||"` — recomputing filename-fallback IDs for records lacking stored ones.
Records that cannot be keyed, and groups of a single record, are left untouched.
In every group of more than one record the earliest-created record survives as
the merge base, every non-empty field value of the other group members is
unioned into it with more-recently-created records' values winning, and all
other group members are deleted. -/
theorem cleanupDuplicates_spec (records : List CoaRecord)
    (hsort : records.Pairwise (fun a b => a.createdAt < b.createdAt))
    (hnid : (records.map (fun r => r.id)).Nodup)
    (hwf : ∀ r ∈ records, recordWF r) :
    (∀ r ∈ records, mkKeyed r = none → r ∈ cleanupDuplicates records) ∧
    (∀ r kr, r ∈ records → mkKeyed r = some kr →
       groupOf records kr.nKey = [kr] → r ∈ cleanupDuplicates records) ∧
    (∀ k master dups, groupOf records k = master :: dups → dups ≠ [] →
       (∀ d ∈ dups, master.row.createdAt < d.row.createdAt) ∧
       applyMergedData (buildMergedData master (master :: dups)) master.row
         ∈ cleanupDuplicates records ∧
       (∀ d ∈ dups, ∀ r' ∈ cleanupDuplicates records, r'.id ≠ d.row.id) ∧
       (∀ key, fieldVal (applyMergedData (buildMergedData master (master :: dups))
             master.row).fields key
           = lastWins (dups.map (fun d => fieldVal d.row.fields key))
               (fieldVal master.row.fields key))) := by
  have hGnodup : ((buildGroups records []).map Prod.fst).Nodup :=
    keysNodup_buildGroups records [] (by simp)
  have hlookupG : ∀ k, lookupG (buildGroups records []) k = groupOf records k := by
    intro k
    have h := lookupG_buildGroups records [] k
    rw [show lookupG ([] : List (String × List Keyed)) k = [] from rfl] at h
    simpa [groupOf] using h
  refine ⟨?_, ?_, ?_⟩
  · -- unkeyable records survive untouched
    intro r hr hnone
    unfold cleanupDuplicates
    apply mem_processGroups_of _ _ _ hr
    intro e he
    right
    intro kr hkr
    have hepair : (e.1, e.2) ∈ buildGroups records [] := by rw [Prod.mk.eta]; exact he
    have hge := mem_buildGroups_eq_groupOf records e.1 e.2 hepair
    have hkrK : kr ∈ keyedList records :=
      (groupOf_sublist_keyedList records e.1).subset (hge ▸ hkr)
    obtain ⟨r', hr', hmk⟩ := (mem_keyedList_iff records kr).mp hkrK
    have hrow : kr.row = r' := mkKeyed_row r' kr hmk
    have hner : r ≠ kr.row := by
      intro hh
      rw [hh, hrow] at hnone
      rw [hnone] at hmk
      exact Option.noConfusion hmk
    exact ids_ne_of_mem_ne records hnid r kr.row hr (hrow ▸ hr') hner
  · -- singleton groups survive untouched
    intro r kr hr hmk hgroup
    unfold cleanupDuplicates
    apply mem_processGroups_of _ _ _ hr
    intro e he
    have hepair : (e.1, e.2) ∈ buildGroups records [] := by rw [Prod.mk.eta]; exact he
    have hge := mem_buildGroups_eq_groupOf records e.1 e.2 hepair
    by_cases hk : e.1 = kr.nKey
    · left
      rw [hge, hk, hgroup]
      simp
    · right
      intro kr' hkr'
      have hkr'K : kr' ∈ keyedList records :=
        (groupOf_sublist_keyedList records e.1).subset (hge ▸ hkr')
      have hn1 : kr'.nKey = e.1 := mem_groupOf_nKey records e.1 kr' (hge ▸ hkr')
      have hkrK : kr ∈ keyedList records := (mem_keyedList_iff records kr).mpr ⟨r, hr, hmk⟩
      have hne : kr' ≠ kr := by
        intro hh
        rw [hh] at hn1
        exact hk hn1.symm
      have hrow : kr.row = r := mkKeyed_row r kr hmk
      have hids := keyed_ids_ne records hnid kr' kr hkr'K hkrK hne
      rw [hrow] at hids
      exact fun hh => hids hh.symm
  · -- groups of more than one record
    intro k master dups hgroup hdne
    have hGk : lookupG (buildGroups records []) k = groupOf records k := hlookupG k
    have hmem_e : (k, master :: dups) ∈ buildGroups records [] := by
      have hne : lookupG (buildGroups records []) k ≠ [] := by
        rw [hGk, hgroup]
        simp
      have hm := mem_of_lookupG_ne (buildGroups records []) k hne
      rw [hGk, hgroup] at hm
      exact hm
    obtain ⟨G1, G2, hsplit⟩ := List.append_of_mem hmem_e
    have hkeys : ((G1 ++ (k, master :: dups) :: G2).map Prod.fst).Nodup := by
      rw [← hsplit]
      exact hGnodup
    rw [List.map_append, List.map_cons] at hkeys
    rcases List.nodup_append.mp hkeys with ⟨hnd1, hnd2, hdisj⟩
    have hkG1 : k ∉ G1.map Prod.fst := fun hmem =>
      hdisj hmem (List.mem_cons_self _ _)
    have hkG2 : k ∉ G2.map Prod.fst := (List.nodup_cons.mp hnd2).1
    have hsortg := groupOf_sorted records k hsort
    rw [hgroup] at hsortg
    have hlt : ∀ d ∈ dups, master.row.createdAt < d.row.createdAt :=
      (List.pairwise_cons.mp hsortg).1
    have hmaster_mem_g : master ∈ groupOf records k := by
      rw [hgroup]
      exact List.mem_cons_self _ _
    have hmaster_keyed : master ∈ keyedList records :=
      (groupOf_sublist_keyedList records k).subset hmaster_mem_g
    have hmaster_row_mem : master.row ∈ records :=
      mem_keyedList_row_mem records master hmaster_keyed
    have hwfM : recordWF master.row := hwf master.row hmaster_row_mem
    have hdups_mem : ∀ d ∈ dups, d ∈ groupOf records k := by
      intro d hd
      rw [hgroup]
      exact List.mem_cons_of_mem _ hd
    have hconds : ∀ d ∈ dups,
        recordWF d.row ∧ master.row.createdAt < d.row.createdAt := by
      intro d hd
      refine ⟨hwf d.row (mem_keyedList_row_mem records d
        ((groupOf_sublist_keyedList records k).subset (hdups_mem d hd))), hlt d hd⟩
    have hgid : ((groupOf records k).map (fun kr => kr.row.id)).Nodup := by
      have hsub : ((groupOf records k).map (fun kr => kr.row.id)).Sublist
          ((keyedList records).map (fun kr => kr.row.id)) :=
        (groupOf_sublist_keyedList records k).map _
      exact (keyedList_ids_nodup records hnid).sublist hsub
    rw [hgroup, List.map_cons] at hgid
    have hmidne : ∀ d ∈ dups, master.row.id ≠ d.row.id := by
      have h1 := (List.nodup_cons.mp hgid).1
      intro d hd hh
      exact h1 (hh ▸ List.mem_map.mpr ⟨d, hd, rfl⟩)
    have hother : ∀ (e : String × List Keyed), e ∈ buildGroups records [] →
        e.1 ≠ k → ∀ kr' ∈ e.2, ∀ kr ∈ groupOf records k,
        kr'.row.id ≠ kr.row.id := by
      intro e he hek kr' hkr' kr hkr
      have hepair : (e.1, e.2) ∈ buildGroups records [] := by rw [Prod.mk.eta]; exact he
      have hge := mem_buildGroups_eq_groupOf records e.1 e.2 hepair
      have h1 : kr' ∈ keyedList records :=
        (groupOf_sublist_keyedList records e.1).subset (hge ▸ hkr')
      have h2 : kr ∈ keyedList records :=
        (groupOf_sublist_keyedList records k).subset hkr
      have hn1 : kr'.nKey = e.1 := mem_groupOf_nKey records e.1 kr' (hge ▸ hkr')
      have hn2 : kr.nKey = k := mem_groupOf_nKey records k kr hkr
      have hne : kr' ≠ kr := by
        intro hh
        rw [hh, hn2] at hn1
        exact hek hn1.symm
      exact keyed_ids_ne records hnid kr' kr h1 h2 hne
    have hG1sub : ∀ e ∈ G1, e ∈ buildGroups records [] := by
      intro e he
      rw [hsplit]
      exact List.mem_append_left _ he
    have hG2sub : ∀ e ∈ G2, e ∈ buildGroups records [] := by
      intro e he
      rw [hsplit]
      exact List.mem_append_right _ (List.mem_cons_of_mem _ he)
    have hG1ne : ∀ e ∈ G1, e.1 ≠ k := by
      intro e he hh
      exact hkG1 (hh ▸ List.mem_map.mpr ⟨e, he, rfl⟩)
    have hG2ne : ∀ e ∈ G2, e.1 ≠ k := by
      intro e he hh
      exact hkG2 (hh ▸ List.mem_map.mpr ⟨e, he, rfl⟩)
    have hclean : cleanupDuplicates records =
        processGroups (processGroup (processGroups records G1) (master :: dups)) G2 := by
      unfold cleanupDuplicates
      rw [hsplit, processGroups_append]
      rfl
    refine ⟨hlt, ?_, ?_, ?_⟩
    · -- the merged master survives
      have hs1 : master.row ∈ processGroups records G1 := by
        apply mem_processGroups_of _ _ _ hmaster_row_mem
        intro e he
        right
        intro kr' hkr'
        have hids := hother e (hG1sub e he) (hG1ne e he) kr' hkr' master hmaster_mem_g
        exact fun hh => hids hh.symm
      have hmerged_in : applyMergedData (buildMergedData master (master :: dups))
          master.row ∈ processGroup (processGroups records G1) (master :: dups) := by
        rw [processGroup_cons_ne _ master dups hdne]
        apply mem_deleteFold_of_ne
        · by_cases hdirty : (buildMergedData master (master :: dups)).dirty = true
          · rw [if_pos hdirty]
            exact List.mem_map.mpr ⟨master.row, hs1, by rw [if_pos rfl]⟩
          · have hfalse : (buildMergedData master (master :: dups)).dirty = false := by
              cases hh : (buildMergedData master (master :: dups)).dirty
              · rfl
              · exact absurd hh hdirty
            rw [if_neg hdirty]
            rw [buildMergedData_of_not_dirty master (master :: dups) hfalse,
              applyMergedData_empty]
            exact hs1
        · intro d hd
          rw [applyMergedData_id]
          exact hmidne d hd
      rw [hclean]
      apply mem_processGroups_of _ _ _ hmerged_in
      intro e he
      right
      intro kr' hkr'
      rw [applyMergedData_id]
      have hids := hother e (hG2sub e he) (hG2ne e he) kr' hkr' master hmaster_mem_g
      exact fun hh => hids hh.symm
    · -- the duplicates are deleted
      intro d hd r' hr'
      rw [hclean] at hr'
      have habsent : ∀ r'' ∈ processGroup (processGroups records G1) (master :: dups),
          r''.id ≠ d.row.id := by
        intro r'' hr''
        rw [processGroup_cons_ne _ master dups hdne] at hr''
        exact not_mem_deleteFold dups d hd _ r'' hr''
      exact not_mem_processGroups_id G2 _ d.row.id habsent r' hr'
    · -- merged fields: last-write-wins union
      intro key
      exact merged_field_char master dups hwfM hconds key

/-- C6 counterexample: grouping is by the concatenated `ns||nb` string, not by the
pair of normalized IDs — two records with distinct (sample, batch) pairs
(`("a||b", "c")` and `("a", "b||c")`) are conflated into one group, so the later
record is deleted although the claim's pair-grouping would leave both untouched. -/
theorem cleanupDuplicates_conflates_pairs :
    claimPairKey ⟨1, some "u", "a.pdf", some "a||b", some "c", [], 0⟩ ≠
      claimPairKey ⟨2, some "u", "b.pdf", some "a", some "b||c", [], 1⟩ ∧
    (∀ r ∈ cleanupDuplicates
        [⟨1, some "u", "a.pdf", some "a||b", some "c", [], 0⟩,
         ⟨2, some "u", "b.pdf", some "a", some "b||c", [], 1⟩], r.id ≠ 2) := by
  constructor
  · decide
  · decide

/-- C6 witness: a three-record group plus an unkeyable record — the earliest
record's merged form survives carrying the newest non-empty values, the two
duplicates are deleted, and the unkeyable record is untouched. -/
theorem cleanupDuplicates_spec_witness :
    (⟨4, some "u", "nofile.pdf", none, none, [("ai", some "id-less")], 3⟩ : CoaRecord) ∈
      cleanupDuplicates
        [⟨1, some "u", "x.pdf", some "M20250001", some "BA1",
           [("ai", some "1"), ("pc", some "9")], 0⟩,
         ⟨2, some "u", "y.pdf", some "20250001", some "BA1",
           [("ai", some "2"), ("lead", none)], 1⟩,
         ⟨3, some "u", "z.pdf", some "m 20250001", some "BA1",
           [("ai", some ""), ("lead", some "7")], 2⟩,
         ⟨4, some "u", "nofile.pdf", none, none, [("ai", some "id-less")], 3⟩] := by
  have h := (cleanupDuplicates_spec
    [⟨1, some "u", "x.pdf", some "M20250001", some "BA1",
       [("ai", some "1"), ("pc", some "9")], 0⟩,
     ⟨2, some "u", "y.pdf", some "20250001", some "BA1",
       [("ai", some "2"), ("lead", none)], 1⟩,
     ⟨3, some "u", "z.pdf", some "m 20250001", some "BA1",
       [("ai", some ""), ("lead", some "7")], 2⟩,
     ⟨4, some "u", "nofile.pdf", none, none, [("ai", some "id-less")], 3⟩]
    (by decide) (by decide) (by decide)).1
  exact h ⟨4, some "u", "nofile.pdf", none, none, [("ai", some "id-less")], 3⟩
    (by decide) (by decide)

end Coa
